import Mathlib

/-!
Verification of the LRC parsing / timestamp-normalization core of `lyrict.py`.

Python strings are modelled as `List Char`.  Modelling boundaries (documented
once here): `\d` and `\w` are modelled as ASCII digit / word characters,
`str.strip()` strips ASCII spaces and tabs, and line-break handling covers
`'\n'`, `'\r'`, `"\r\n"` and the other `str.splitlines` break characters.
Python's arbitrary-precision `int` is `Int` (`Nat` where provably nonnegative);
`timedelta` arithmetic is floor division / modulus, which is `Int` `/` and
`%` (`Int.ediv` / `Int.emod`).  Regular expressions are compiled by hand into deterministic
scanners; where the regex engine's backtracking is observable (the
single-timestamp line pattern's lookahead interacting with `"\] *"`), the
scanner reproduces the backtracking result, as noted at the definition.

Recursions that are not structural use an explicit fuel argument (always
instantiated with the input length, which every scanner consumes at least one
character of per step), so that all definitions compute by kernel reduction.
-/

namespace Lyrict

instance {ε α : Type _} [DecidableEq ε] [DecidableEq α] : DecidableEq (Except ε α) :=
  fun x y =>
    match x, y with
    | .ok a, .ok b => if h : a = b then .isTrue (by rw [h]) else .isFalse (by simp [h])
    | .error a, .error b => if h : a = b then .isTrue (by rw [h]) else .isFalse (by simp [h])
    | .ok _, .error _ => .isFalse (by simp)
    | .error _, .ok _ => .isFalse (by simp)

/-- Digits of a decimal numeral. -/
def natOfDigits (ds : List Char) : Nat :=
  ds.foldl (fun a c => 10 * a + (c.toNat - '0'.toNat)) 0

/-- Decimal digits of `n`, as Python `str(n)` for a natural number (fuel is
the number of digit extractions, bounded by `n`). -/
def natCharsF : Nat → Nat → List Char
  | 0, _ => []
  | fu + 1, n =>
    if n < 10 then [Nat.digitChar n]
    else natCharsF fu (n / 10) ++ [Nat.digitChar (n % 10)]

def natChars (n : Nat) : List Char :=
  natCharsF (n + 1) n

/-- Python `f"{x:0w}"`: zero-pad the decimal numeral of `x` to width `w`. -/
def pad (w : Nat) (x : Nat) : List Char :=
  List.replicate (w - (natChars x).length) '0' ++ natChars x

/-- Python `s.ljust(w, '0')`. -/
def ljustZ (w : Nat) (l : List Char) : List Char :=
  l ++ List.replicate (w - l.length) '0'

/-- The characters a timestamp body consists of: `\d`, `:`, `.`. -/
def charsetB (c : Char) : Bool :=
  c.isDigit || c == ':' || c == '.'

/-- Captured groups of the timestamp grammar
`(?:(\d{1,2}):)?(\d{1,3}):(\d{1,2})(?:\.(\d{2,3}))?`:
optional hours, minutes, seconds, optional fractional digits. -/
structure TsG where
  h : Option (List Char)
  m : List Char
  s : List Char
  f : Option (List Char)
  deriving DecidableEq, Repr

/-- Full match of `(?:(\d{1,2}):)?(\d{1,3}):(\d{1,2})(?:\.(\d{2,3}))?` against a
string of timestamp-body characters.  Each digit group of the regex is followed
by a non-digit, so the regex must take every digit run whole; the decomposition
is therefore deterministic: two colons force the hours form, one colon the
hourless form, and the run-length bounds are checked exactly. -/
def shape (pre : List Char) : Option TsG :=
  let r1 := pre.takeWhile Char.isDigit
  match pre.drop r1.length with
  | ':' :: t2 =>
    let r2 := t2.takeWhile Char.isDigit
    match t2.drop r2.length with
    | ':' :: t4 =>
      -- hours form `(\d{1,2}):(\d{1,3}):(\d{1,2})(\.\d{2,3})?`
      let r3 := t4.takeWhile Char.isDigit
      if 1 ≤ r1.length ∧ r1.length ≤ 2 ∧ 1 ≤ r2.length ∧ r2.length ≤ 3 ∧
          1 ≤ r3.length ∧ r3.length ≤ 2 then
        match t4.drop r3.length with
        | [] => some ⟨some r1, r2, r3, none⟩
        | '.' :: t6 =>
          let fr := t6.takeWhile Char.isDigit
          if (2 ≤ fr.length ∧ fr.length ≤ 3) ∧ t6.drop fr.length = [] then
            some ⟨some r1, r2, r3, some fr⟩
          else none
        | _ => none
      else none
    | [] =>
      -- hourless form `(\d{1,3}):(\d{1,2})`
      if 1 ≤ r1.length ∧ r1.length ≤ 3 ∧ 1 ≤ r2.length ∧ r2.length ≤ 2 then
        some ⟨none, r1, r2, none⟩
      else none
    | '.' :: t4 =>
      let fr := t4.takeWhile Char.isDigit
      if (1 ≤ r1.length ∧ r1.length ≤ 3 ∧ 1 ≤ r2.length ∧ r2.length ≤ 2) ∧
          (2 ≤ fr.length ∧ fr.length ≤ 3) ∧ t4.drop fr.length = [] then
        some ⟨none, r1, r2, some fr⟩
      else none
    | _ => none
  | _ => none

/-- Hours group as a number (`int(hours) if hours else 0`). -/
def hoursN (g : TsG) : Nat :=
  match g.h with
  | some hs => natOfDigits hs
  | none => 0

/-- `int(milliseconds.ljust(3, '0')) if milliseconds else 0`. -/
def msOfFrac (f : Option (List Char)) : Nat :=
  match f with
  | some d => natOfDigits (ljustZ 3 d)
  | none => 0

/-- Total milliseconds denoted by a timestamp token
(`hours*3600000 + minutes*60000 + seconds*1000 + milliseconds`). -/
def tsTotalMs (g : TsG) : Nat :=
  3600000 * hoursN g + 60000 * natOfDigits g.m + 1000 * natOfDigits g.s + msOfFrac g.f

/-- The `standardize` CLI modes `'keep'`, `'force.xx'`, `'force.xxx'`. -/
inductive Mode where
  | keep
  | forceXX
  | forceXXX
  deriving DecidableEq, Repr

/-- The `hh:mm:ss` / `mm:ss` part of `fix_timestamp`'s output (identical in
all three mode branches of the source): hour group only if nonzero. -/
def fixBase (hours minutes seconds : Nat) : List Char :=
  if hours ≠ 0 then
    pad 2 hours ++ ':' :: (pad 2 minutes ++ ':' :: pad 2 seconds)
  else
    pad 2 minutes ++ ':' :: pad 2 seconds

/-- The fractional part appended by `fix_timestamp`, per mode: `keep` re-emits
a two-digit fraction as the original digits (`raw_ms.ljust(2,'0')[:2]`) and a
three-digit one as the recomputed `f"{milliseconds:03}"`; the force modes
always append, defaulting to `.00` / `.000`. -/
def fixFrac (mode : Mode) (f : Option (List Char)) (millis : Nat) : List Char :=
  match mode with
  | .keep =>
    (match f with
     | some r =>
       if r.length = 2 then '.' :: (ljustZ 2 r).take 2
       else if r.length = 3 then '.' :: pad 3 millis
       else []
     | none => [])
  | .forceXX =>
    (match f with
     | some r => '.' :: (ljustZ 2 r).take 2
     | none => ['.', '0', '0'])
  | .forceXXX =>
    (match f with
     | some _ => '.' :: pad 3 millis
     | none => ['.', '0', '0', '0'])

/-- `fix_timestamp` from `standardize_timestamps`: carry-normalize the parsed
groups through `timedelta` (`.seconds` is total seconds modulo one day,
`.microseconds // 1000` the millisecond part) and reformat per mode. -/
def fixTs (mode : Mode) (g : TsG) : List Char :=
  let total := tsTotalMs g
  let secondsAttr := total / 1000 % 86400
  fixBase (secondsAttr / 3600) (secondsAttr % 3600 / 60) (secondsAttr % 60) ++
    fixFrac mode g.f (total % 1000)

/-- Match of `(?<=[\[<])((?:\d{1,2}:)?\d{1,3}:\d{1,2}(?:\.\d{2,3})?)(?=[\]>])`
at the head of `cs` (`cs` are the characters after the opening `[` or `<`).
Because the token body may only contain body characters and the lookahead
characters `]`/`>` are not body characters, the regex must consume the maximal
body-character prefix exactly; the match succeeds iff that prefix has the
timestamp shape and the next character closes it. -/
def tokenAt (cs : List Char) : Option (TsG × Nat) :=
  let pre := cs.takeWhile charsetB
  match shape pre, (cs.drop pre.length).head? with
  | some g, some c => if c == ']' || c == '>' then some (g, pre.length) else none
  | _, _ => none

/-- `re.sub(timestamp_pattern, fix_timestamp, lyrics)`: scan left to right; a
match can only start immediately after `[` or `<` (the lookbehind), is replaced
by `fixTs`, and scanning resumes at the unconsumed lookahead character. -/
def subScanF (mode : Mode) : Nat → List Char → List Char
  | _, [] => []
  | 0, cs => cs
  | fu + 1, c :: rest =>
    if c == '[' || c == '<' then
      match tokenAt rest with
      | some (g, n) => c :: (fixTs mode g ++ subScanF mode fu (rest.drop n))
      | none => c :: subScanF mode fu rest
    else c :: subScanF mode fu rest

def subScan (mode : Mode) (cs : List Char) : List Char :=
  subScanF mode cs.length cs

/-- Does `(\d{2}\]) +` match at this position (first char `a`, rest `cs`)? -/
def c1Trig (a : Char) (cs : List Char) : Bool :=
  match cs with
  | b :: ']' :: t => a.isDigit && b.isDigit && t.head? == some ' '
  | _ => false

/-- `re.sub(r"(\d{2}\]) +", r"\1", lyrics)`: delete every run of spaces that
immediately follows two digits and a `]` (on a match, `cs.take 2` is the
`\d\]` part and the spaces after `cs.drop 2` are dropped). -/
def c1F : Nat → List Char → List Char
  | _, [] => []
  | 0, cs => cs
  | fu + 1, a :: cs =>
    if c1Trig a cs then
      a :: (cs.take 2 ++ c1F fu ((cs.drop 2).dropWhile (· == ' ')))
    else a :: c1F fu cs

def c1 (cs : List Char) : List Char :=
  c1F cs.length cs

/-- `re.sub(r'\n{2,}', '\n\n', lyrics)`: keep the first two newlines of every
newline run, drop the rest.  `k` counts the newlines emitted in the current
run (capped at 2). -/
def c2go (k : Nat) : List Char → List Char
  | [] => []
  | c :: cs =>
    if c == '\n' then
      if 2 ≤ k then c2go k cs else c :: c2go (k + 1) cs
    else c :: c2go 0 cs

def c2 (cs : List Char) : List Char :=
  c2go 0 cs

/-- `standardize_timestamps(lyrics, standardize)`: rewrite every bracketed or
angle-bracketed timestamp, then the two textual cleanups. -/
def standardize_timestamps (lyrics : List Char) (mode : Mode) : List Char :=
  c2 (c1 (subScan mode lyrics))

/-! ### The LRC parser `parse_lrc_to_sylt` -/

/-- `str.splitlines` line-break characters. -/
def isLB (c : Char) : Bool :=
  c == '\n' || c == '\r' || c == '\x0b' || c == '\x0c' ||
  c == '\x1c' || c == '\x1d' || c == '\x1e' || c == '\u0085' ||
  c == '\u2028' || c == '\u2029'

def splitGoF : Nat → List Char → List Char → List (List Char)
  | _, [], cur => [cur.reverse]
  | 0, c :: t, cur => [cur.reverse ++ c :: t]
  | fu + 1, c :: t, cur =>
    if c == '\r' && t.head? == some '\n' then
      cur.reverse :: (if t.tail.isEmpty then [] else splitGoF fu t.tail [])
    else if isLB c then
      cur.reverse :: (if t.isEmpty then [] else splitGoF fu t [])
    else splitGoF fu t (c :: cur)

/-- Python `str.splitlines()`. -/
def pySplitlines (cs : List Char) : List (List Char) :=
  if cs.isEmpty then [] else splitGoF cs.length cs []

/-- The `^...$` regions of a `re.MULTILINE` search over a whole Python string:
the segments between `'\n'` characters. -/
def mlSegments (cs : List Char) : List (List Char) :=
  cs.splitOn '\n'

/-- ASCII model of `\w`. -/
def isWordChar (c : Char) : Bool :=
  c.isAlphanum || c == '_'

/-- One MULTILINE region fully matching `^\[la: *(\w{2,3})\]$` (IGNORECASE);
returns the captured language code. -/
def langLine (seg : List Char) : Option (List Char) :=
  match seg with
  | '[' :: a :: b :: ':' :: t =>
    if a.toLower == 'l' && b.toLower == 'a' then
      let t1 := t.dropWhile (· == ' ')
      let w := t1.takeWhile isWordChar
      if (2 ≤ w.length ∧ w.length ≤ 3) ∧ t1.drop w.length = [']'] then some w
      else none
    else none
  | _ => none

/-- One MULTILINE region fully matching `^\[offset: *([+-]\d+)\]$` (IGNORECASE);
returns `int(group(1))`.  Note the sign is mandatory. -/
def offsetLine (seg : List Char) : Option Int :=
  match seg with
  | '[' :: a :: b :: c :: d :: e :: f :: ':' :: t =>
    if [a.toLower, b.toLower, c.toLower, d.toLower, e.toLower, f.toLower]
        = ['o', 'f', 'f', 's', 'e', 't'] then
      match t.dropWhile (· == ' ') with
      | sg :: t2 =>
        let ds := t2.takeWhile Char.isDigit
        if (sg == '+' || sg == '-') && decide (1 ≤ ds.length) &&
            t2.drop ds.length == [']'] then
          some ((if sg == '-' then -1 else 1) * (natOfDigits ds : Int))
        else none
      | [] => none
    else none
  | _ => none

/-- `language_pattern.search(lyrics)`: first matching region. -/
def findLang (lyrics : List Char) : Option (List Char) :=
  (mlSegments lyrics).findSome? langLine

/-- `offset_pattern.search(lyrics)`: first matching region. -/
def findOffset (lyrics : List Char) : Option Int :=
  (mlSegments lyrics).findSome? offsetLine

/-- Negative-lookahead alternative `\[\d{1,3}:` tested at the start of the
text remainder. -/
def startsBracketTs (cs : List Char) : Bool :=
  match cs with
  | '[' :: t =>
    let d := t.takeWhile Char.isDigit
    decide (1 ≤ d.length ∧ d.length ≤ 3) && (t.drop d.length).head? == some ':'
  | _ => false

/-- Negative-lookahead alternative `.*<\d{1,3}:`: does `cs` contain `<`
followed by one to three digits and a colon anywhere? -/
def containsAngleTs (cs : List Char) : Bool :=
  match cs with
  | [] => false
  | '<' :: t =>
    (decide (1 ≤ (t.takeWhile Char.isDigit).length ∧
        (t.takeWhile Char.isDigit).length ≤ 3) &&
      (t.drop (t.takeWhile Char.isDigit).length).head? == some ':') ||
    containsAngleTs t
  | _ :: t => containsAngleTs t

/-- `timestamp_pattern.match(line)` for
`^\[(?:(\d{1,2}):)?(\d{1,3}):(\d{1,2})(?:\.(\d{2,3}))?\] *(?!(?:.*<\d{1,3}:|\[\d{1,3}:))(.*)$`.
Returns the timestamp groups and group 5 (the text).  The `" *"` is greedy but
backtracks against the negative lookahead: with all spaces consumed the
lookahead fails only on `\[\d{1,3}:` or a contained `<\d{1,3}:`; the contained
test does not depend on leading spaces, while giving back one space defeats the
`\[\d{1,3}:` test.  Hence: a contained `<\d{1,3}:` kills the match; otherwise
if the despaced remainder starts with `\[\d{1,3}:` the match succeeds exactly
when at least one space was available to give back, with that space in the
text group. -/
def singleMatch (line : List Char) : Option (TsG × List Char) :=
  match line with
  | '[' :: rest =>
    let pre := rest.takeWhile charsetB
    match shape pre with
    | some g =>
      match rest.drop pre.length with
      | ']' :: rest0 =>
        let restK := rest0.dropWhile (· == ' ')
        if containsAngleTs restK then none
        else if !startsBracketTs restK then some (g, restK)
        else if rest0.head? == some ' ' then some (g, ' ' :: restK)
        else none
      | _ => none
    | none => none
  | _ => none

/-- Match of one bracketed unit `\[(?:\d{1,2}:)?\d{1,3}:\d{1,2}(?:\.\d{2,3})?\]`
at the head of `cs`; returns the consumed length (brackets included). -/
def bracketTsLen (cs : List Char) : Option Nat :=
  match cs with
  | '[' :: rest =>
    let pre := rest.takeWhile charsetB
    if (shape pre).isSome && (rest.drop pre.length).head? == some ']' then
      some (pre.length + 2)
    else none
  | _ => none

/-- `mutli_timestamp_check_pattern.match(line)`:
`^(?:\[...\] *){2,}.*$` — at least two bracketed units, spaces allowed after
each, from the start of the line. -/
def multiCheck (line : List Char) : Bool :=
  match bracketTsLen line with
  | some n => (bracketTsLen ((line.drop n).dropWhile (· == ' '))).isSome
  | none => false

/-- `len(re.findall(multi_timestamp_pattern, line))`: number of
non-overlapping bracketed units anywhere in the line. -/
def countTsF : Nat → List Char → Nat
  | _, [] => 0
  | 0, _ => 0
  | fu + 1, c :: t =>
    match bracketTsLen (c :: t) with
    | some n => 1 + countTsF fu ((c :: t).drop n)
    | none => countTsF fu t

def countTs (line : List Char) : Nat :=
  countTsF line.length line

/-- Greedy `(?:\[...\])+` at the start of a line: chomp maximal run of
bracketed units (no spaces between them). -/
def unitsChompF : Nat → List Char → List Char
  | 0, cs => cs
  | fu + 1, cs =>
    match bracketTsLen cs with
    | some n => unitsChompF fu (cs.drop n)
    | none => cs

def unitsChomp (cs : List Char) : List Char :=
  unitsChompF cs.length cs

/-- Python `str.strip()` (ASCII space and tab model). -/
def isPySpace (c : Char) : Bool :=
  c == ' ' || c == '\t'

def pyStrip (cs : List Char) : List Char :=
  (((cs.dropWhile isPySpace).reverse).dropWhile isPySpace).reverse

/-- `multi_text_pattern` = `^(?:\[...\])+ *(.*)$` applied to the line, then
`.group(1).strip() if text else ""`. -/
def multiText (line : List Char) : List Char :=
  match bracketTsLen line with
  | none => []
  | some _ => pyStrip ((unitsChomp line).dropWhile (· == ' '))

/-- Pre-offset millisecond value of parsed groups, as `Int`. -/
def tsValue (g : TsG) : Int :=
  (tsTotalMs g : Int)

/-- Parser loop state: `match` (the last single-timestamp `re.Match`, unbound
before the first single-timestamp line), the collected events, the omitted
lines. -/
structure PState where
  stale : Option TsG
  events : List (List Char × Int)
  omitted : List (List Char)
  deriving Repr, DecidableEq

/-- One iteration of the per-line loop of `parse_lrc_to_sylt`.  The
multi-timestamp branch reads the variables of the stale single-timestamp
`match` object (`match[1]`..`match[4]`) instead of the loop variable; when no
single-timestamp line has matched yet this raises `UnboundLocalError`,
modelled as `Except.error`. -/
def step (offset : Int) (st : PState) (idx : Nat) (line : List Char) :
    Except Unit PState :=
  match singleMatch line with
  | some (g, txt) =>
    let v := tsValue g + offset
    Except.ok
      { st with
        stale := some g
        events := if 0 ≤ v then st.events ++ [(pyStrip txt, v)] else st.events }
  | none =>
    if multiCheck line then
      match st.stale with
      | none => Except.error ()
      | some m =>
        let n := countTs line
        let txt := multiText line
        let v := tsValue m + offset
        Except.ok
          { st with
            events := st.events ++ (if 0 < v then List.replicate n (txt, v) else []) }
    else
      Except.ok
        { st with omitted := st.omitted ++ [natChars (idx + 1) ++ ' ' :: line] }

/-- The key ordering used by `sorted(sylt_lyrics, key=lambda x: x[1])`. -/
def byValue (a b : List Char × Int) : Prop :=
  a.2 ≤ b.2

instance : DecidableRel byValue := fun a b => Int.decLe a.2 b.2

instance : IsTotal (List Char × Int) byValue :=
  ⟨fun a b => Int.le_total a.2 b.2⟩

instance : IsTrans (List Char × Int) byValue :=
  ⟨fun _ _ _ h h2 => le_trans h h2⟩

/-- The unsorted event list together with the rest of the parser state.
`List.insertionSort byValue` below is extensionally the stable sort, hence the
same function as Python's (stable) `sorted(..., key=lambda x: x[1])`. -/
def parseRaw (lyrics : List Char) : Except Unit PState :=
  let offset := (findOffset lyrics).getD 0
  (pySplitlines lyrics).enum.foldlM
    (fun st p => step offset st p.1 p.2) ⟨none, [], []⟩

/-- `parse_lrc_to_sylt(lyrics)`: returns `(language, sorted events,
omitted lines)` or the uncaught `UnboundLocalError`. -/
def parse_lrc_to_sylt (lyrics : List Char) :
    Except Unit (List Char × List (List Char × Int) × List (List Char)) :=
  let language := (findLang lyrics).getD ['e', 'n', 'g']
  match parseRaw lyrics with
  | Except.ok st =>
    Except.ok (language, List.insertionSort byValue st.events, st.omitted)
  | Except.error e => Except.error e

/-! ### The LRC formatter `extract_sylt_to_lrc` -/

/-- The `[hh:mm:ss.xxx]` / `[mm:ss.xxx]` timestamp of one exported line:
`timedelta(milliseconds=ms)` attribute arithmetic (`.seconds` is total seconds
modulo one day — days are discarded — and `.microseconds // 1000` the
millisecond part), hour group only when nonzero. -/
def formatTs (ms : Int) : List Char :=
  let secondsAttr := ((ms / 1000) % 86400).toNat
  let hours := secondsAttr / 3600
  let minutes := secondsAttr % 3600 / 60
  let seconds := secondsAttr % 60
  let millis := (ms % 1000).toNat
  if 0 < hours then
    '[' :: (pad 2 hours ++ ':' :: (pad 2 minutes ++ ':' ::
      (pad 2 seconds ++ '.' :: (pad 3 millis ++ [']']))))
  else
    '[' :: (pad 2 minutes ++ ':' :: (pad 2 seconds ++ '.' :: (pad 3 millis ++ [']'])))

/-- `extract_sylt_to_lrc`: one `f"{timestamp_formatted}{text}"` line per event,
joined with newlines. -/
def extract_sylt_to_lrc (evs : List (List Char × Int)) : List Char :=
  List.intercalate ['\n'] (evs.map fun e => formatTs e.2 ++ e.1)

/-! ### Auxiliary notions used to state the claims -/

/-- Are all characters decimal digits? -/
def digitsB (l : List Char) : Bool :=
  l.all Char.isDigit

/-- Well-formedness of timestamp groups as produced by `shape`: digit strings
within the regex length bounds. -/
def goodG (g : TsG) : Bool :=
  (match g.h with
   | some hs => digitsB hs && decide (1 ≤ hs.length ∧ hs.length ≤ 2)
   | none => true) &&
  (digitsB g.m && decide (1 ≤ g.m.length ∧ g.m.length ≤ 3)) &&
  (digitsB g.s && decide (1 ≤ g.s.length ∧ g.s.length ≤ 2)) &&
  (match g.f with
   | some fr => digitsB fr && decide (2 ≤ fr.length ∧ fr.length ≤ 3)
   | none => true)

/-- Does `\d{2}\] ` occur at this position? -/
def c1occ (l : List Char) : Bool :=
  match l with
  | a :: b :: ']' :: ' ' :: _ => a.isDigit && b.isDigit
  | _ => false

/-- Does the text contain two digits, a `]` and a space anywhere (a site the
cleanup `re.sub(r"(\d{2}\]) +", r"\1")` would rewrite)? -/
def hasC1 : List Char → Bool
  | [] => false
  | c :: t => c1occ (c :: t) || hasC1 t

/-- Do three consecutive newlines start at this position? -/
def tripleOcc (l : List Char) : Bool :=
  match l with
  | '\n' :: '\n' :: '\n' :: _ => true
  | _ => false

/-- Does the text contain three consecutive newlines (a site the cleanup
`re.sub(r'\n{2,}', '\n\n')` would shorten)? -/
def hasTriple : List Char → Bool
  | [] => false
  | c :: t => tripleOcc (c :: t) || hasTriple t

/-- Length of the leading newline run. -/
def leadNl (l : List Char) : Nat :=
  (l.takeWhile (· == '\n')).length

/-- Every timestamp token occurrence in the text is a fixed point of
`fix_timestamp`: at each position opened by `[` or `<`, if the token pattern
matches there then the matched body already equals its own rewriting. -/
def ssfix (mode : Mode) : List Char → Bool
  | [] => true
  | c :: rest =>
    (if c == '[' || c == '<' then
      match tokenAt rest with
      | some (g, n) => rest.take n == fixTs mode g
      | none => true
     else true) &&
    ssfix mode rest

/-- Number of lines the parser loop passes over silently (producing neither an
event nor an omitted-line record): single-timestamp lines whose offset-adjusted
value is negative, and multi-timestamp lines whose (stale) value is not
strictly positive.  Replays the loop's `match` state. -/
def droppedAux (offset : Int) : Option TsG → List (List Char) → Nat
  | _, [] => 0
  | stale, line :: rest =>
    match singleMatch line with
    | some (g, _) =>
      (if 0 ≤ tsValue g + offset then 0 else 1) + droppedAux offset (some g) rest
    | none =>
      if multiCheck line then
        match stale with
        | none => 0
        | some m =>
          (if 0 < tsValue m + offset then 0 else 1) + droppedAux offset stale rest
      else droppedAux offset stale rest

def droppedCount (lyrics : List Char) : Nat :=
  droppedAux ((findOffset lyrics).getD 0) none (pySplitlines lyrics)

/-- A header line: one the whole-document language or offset search would
match. -/
def isHeaderLine (l : List Char) : Bool :=
  (langLine l).isSome || (offsetLine l).isSome

/-- Number of non-header lines of the input. -/
def nonHeaderCount (lyrics : List Char) : Nat :=
  ((pySplitlines lyrics).filter (fun l => !isHeaderLine l)).length

/-! ### Unfolding lemmas for the fuel-based scanners -/

theorem subScanF_congr (mode : Mode) :
    ∀ (fu fv : Nat) (cs : List Char), cs.length ≤ fu → cs.length ≤ fv →
      subScanF mode fu cs = subScanF mode fv cs := by
  intro fu
  induction fu with
  | zero =>
    intro fv cs h _
    have : cs = [] := List.eq_nil_of_length_eq_zero (Nat.le_zero.mp h)
    subst this
    cases fv <;> rfl
  | succ fu ih =>
    intro fv cs h1 h2
    cases cs with
    | nil => cases fv <;> rfl
    | cons c rest =>
      cases fv with
      | zero => simp at h2
      | succ fv =>
        simp only [List.length_cons, Nat.add_le_add_iff_right] at h1 h2
        simp only [subScanF]
        cases htok : tokenAt rest with
        | none =>
          rw [ih fv rest h1 h2]
        | some p =>
          obtain ⟨g, n⟩ := p
          dsimp only
          rw [ih fv rest h1 h2,
            ih fv (rest.drop n) (le_trans (by simp) h1) (le_trans (by simp) h2)]

theorem subScan_nil (mode : Mode) : subScan mode [] = [] := rfl

theorem subScan_cons (mode : Mode) (c : Char) (rest : List Char) :
    subScan mode (c :: rest) =
      if c == '[' || c == '<' then
        match tokenAt rest with
        | some (g, n) => c :: (fixTs mode g ++ subScan mode (rest.drop n))
        | none => c :: subScan mode rest
      else c :: subScan mode rest := by
  show subScanF mode (rest.length + 1) (c :: rest) = _
  simp only [subScanF]
  cases htok : tokenAt rest with
  | none => rfl
  | some p =>
    obtain ⟨g, n⟩ := p
    dsimp only
    rw [subScanF_congr mode rest.length (rest.drop n).length (rest.drop n) (by simp) le_rfl]
    rfl

theorem c1F_congr :
    ∀ (fu fv : Nat) (cs : List Char), cs.length ≤ fu → cs.length ≤ fv →
      c1F fu cs = c1F fv cs := by
  intro fu
  induction fu with
  | zero =>
    intro fv cs h _
    have : cs = [] := List.eq_nil_of_length_eq_zero (Nat.le_zero.mp h)
    subst this
    cases fv <;> rfl
  | succ fu ih =>
    intro fv cs h1 h2
    cases cs with
    | nil => cases fv <;> rfl
    | cons a cs =>
      cases fv with
      | zero => simp at h2
      | succ fv =>
        simp only [List.length_cons, Nat.add_le_add_iff_right] at h1 h2
        simp only [c1F]
        have hd : ((cs.drop 2).dropWhile (· == ' ')).length ≤ cs.length := by
          calc ((cs.drop 2).dropWhile (· == ' ')).length ≤ (cs.drop 2).length :=
                (List.dropWhile_sublist _).length_le
            _ ≤ cs.length := by simp
        rw [ih fv cs h1 h2,
          ih fv ((cs.drop 2).dropWhile (· == ' ')) (le_trans hd h1) (le_trans hd h2)]

theorem c1_nil : c1 [] = [] := rfl

theorem c1_cons (a : Char) (cs : List Char) :
    c1 (a :: cs) =
      if c1Trig a cs then
        a :: (cs.take 2 ++ c1 ((cs.drop 2).dropWhile (· == ' ')))
      else a :: c1 cs := by
  show c1F (cs.length + 1) (a :: cs) = _
  simp only [c1F]
  have hd : ((cs.drop 2).dropWhile (· == ' ')).length ≤ cs.length := by
    calc ((cs.drop 2).dropWhile (· == ' ')).length ≤ (cs.drop 2).length :=
          (List.dropWhile_sublist _).length_le
      _ ≤ cs.length := by simp
  rw [c1F_congr cs.length ((cs.drop 2).dropWhile (· == ' ')).length
    ((cs.drop 2).dropWhile (· == ' ')) hd le_rfl]
  rfl

theorem bracketTsLen_pos {cs : List Char} {n : Nat}
    (h : bracketTsLen cs = some n) : 1 ≤ n := by
  simp only [bracketTsLen] at h
  split at h
  · split at h
    · have : _ + 2 = n := Option.some.inj h
      omega
    · exact absurd h (by simp)
  · exact absurd h (by simp)

theorem countTsF_congr :
    ∀ (fu fv : Nat) (cs : List Char), cs.length ≤ fu → cs.length ≤ fv →
      countTsF fu cs = countTsF fv cs := by
  intro fu
  induction fu with
  | zero =>
    intro fv cs h _
    have : cs = [] := List.eq_nil_of_length_eq_zero (Nat.le_zero.mp h)
    subst this
    cases fv <;> rfl
  | succ fu ih =>
    intro fv cs h1 h2
    cases cs with
    | nil => cases fv <;> rfl
    | cons c t =>
      cases fv with
      | zero => simp at h2
      | succ fv =>
        simp only [List.length_cons, Nat.add_le_add_iff_right] at h1 h2
        simp only [countTsF]
        cases hb : bracketTsLen (c :: t) with
        | none => rw [ih fv t h1 h2]
        | some n =>
          have hn : 1 ≤ n := bracketTsLen_pos hb
          have hlen : ((c :: t).drop n).length ≤ t.length := by
            simp only [List.length_drop, List.length_cons]
            omega
          dsimp only
          rw [ih fv ((c :: t).drop n) (le_trans hlen h1) (le_trans hlen h2)]

theorem countTs_cons (c : Char) (t : List Char) :
    countTs (c :: t) =
      match bracketTsLen (c :: t) with
      | some n => 1 + countTs ((c :: t).drop n)
      | none => countTs t := by
  show countTsF (t.length + 1) (c :: t) = _
  simp only [countTsF]
  cases hb : bracketTsLen (c :: t) with
  | none => rfl
  | some n =>
    have hn : 1 ≤ n := bracketTsLen_pos hb
    have hlen : ((c :: t).drop n).length ≤ t.length := by
      simp only [List.length_drop, List.length_cons]
      omega
    dsimp only
    rw [countTsF_congr t.length ((c :: t).drop n).length ((c :: t).drop n) hlen le_rfl]
    rfl

theorem unitsChompF_congr :
    ∀ (fu fv : Nat) (cs : List Char), cs.length ≤ fu → cs.length ≤ fv →
      unitsChompF fu cs = unitsChompF fv cs := by
  intro fu
  induction fu with
  | zero =>
    intro fv cs h _
    have : cs = [] := List.eq_nil_of_length_eq_zero (Nat.le_zero.mp h)
    subst this
    cases fv with
    | zero => rfl
    | succ fv => simp only [unitsChompF]; rfl
  | succ fu ih =>
    intro fv cs h1 h2
    cases hb : bracketTsLen cs with
    | none =>
      cases fv with
      | zero =>
        have : cs = [] := List.eq_nil_of_length_eq_zero (Nat.le_zero.mp h2)
        subst this; rfl
      | succ fv => simp only [unitsChompF, hb]
    | some n =>
      have hn : 1 ≤ n := bracketTsLen_pos hb
      have hcs : cs ≠ [] := by
        intro h; subst h; simp [bracketTsLen] at hb
      have hlen : (cs.drop n).length ≤ cs.length - 1 := by
        simp only [List.length_drop]
        omega
      have hpos : 1 ≤ cs.length := by
        cases cs with
        | nil => exact absurd rfl hcs
        | cons a b => simp
      cases fv with
      | zero => omega
      | succ fv =>
        simp only [unitsChompF, hb]
        exact ih fv (cs.drop n) (by omega) (by omega)

theorem unitsChomp_eq (cs : List Char) :
    unitsChomp cs =
      match bracketTsLen cs with
      | some n => unitsChomp (cs.drop n)
      | none => cs := by
  cases hb : bracketTsLen cs with
  | none =>
    show unitsChompF cs.length cs = cs
    cases cs with
    | nil => rfl
    | cons a t => simp only [unitsChompF, hb]
  | some n =>
    have hn : 1 ≤ n := bracketTsLen_pos hb
    have hcs : cs ≠ [] := by
      intro h; subst h; simp [bracketTsLen] at hb
    have hpos : 1 ≤ cs.length := by
      cases cs with
      | nil => exact absurd rfl hcs
      | cons a b => simp
    show unitsChompF cs.length cs = unitsChomp (cs.drop n)
    obtain ⟨m, hm⟩ : ∃ m, cs.length = m + 1 := ⟨cs.length - 1, by omega⟩
    rw [hm]
    simp only [unitsChompF, hb]
    exact unitsChompF_congr m (cs.drop n).length (cs.drop n)
      (by simp only [List.length_drop]; omega) le_rfl

/-! ### Digits and padding -/

theorem natCharsF_succ (fu n : Nat) :
    natCharsF (fu + 1) n =
      if n < 10 then [Nat.digitChar n]
      else natCharsF fu (n / 10) ++ [Nat.digitChar (n % 10)] := rfl

theorem natCharsF_congr (n : Nat) :
    ∀ fu fv, n < fu → n < fv → natCharsF fu n = natCharsF fv n := by
  induction n using Nat.strong_induction_on with
  | _ n ih =>
    intro fu fv hu hv
    obtain ⟨u, rfl⟩ : ∃ u, fu = u + 1 := ⟨fu - 1, by omega⟩
    obtain ⟨v, rfl⟩ : ∃ v, fv = v + 1 := ⟨fv - 1, by omega⟩
    rw [natCharsF_succ, natCharsF_succ]
    by_cases h : n < 10
    · simp [h]
    · simp only [if_neg h]
      rw [ih (n / 10) (by omega) u v (by omega) (by omega)]

theorem natChars_eq (n : Nat) :
    natChars n =
      if n < 10 then [Nat.digitChar n]
      else natChars (n / 10) ++ [Nat.digitChar (n % 10)] := by
  show natCharsF (n + 1) n = _
  rw [natCharsF_succ]
  by_cases h : n < 10
  · simp [h]
  · simp only [if_neg h]
    rw [natCharsF_congr (n / 10) n (n / 10 + 1) (by omega) (by omega)]
    rfl

theorem natChars_lt10 {n : Nat} (h : n < 10) : natChars n = [Nat.digitChar n] := by
  rw [natChars_eq, if_pos h]

theorem natChars_lt100 {n : Nat} (h10 : 10 ≤ n) (h : n < 100) :
    natChars n = [Nat.digitChar (n / 10), Nat.digitChar (n % 10)] := by
  rw [natChars_eq, if_neg (by omega), natChars_lt10 (by omega)]
  rfl

theorem natChars_lt1000 {n : Nat} (h100 : 100 ≤ n) (h : n < 1000) :
    natChars n =
      [Nat.digitChar (n / 100), Nat.digitChar (n / 10 % 10), Nat.digitChar (n % 10)] := by
  rw [natChars_eq, if_neg (by omega), natChars_lt100 (by omega) (by omega)]
  have : n / 10 / 10 = n / 100 := by omega
  rw [this]
  rfl

theorem pad_two {x : Nat} (h : x < 100) :
    pad 2 x = [Nat.digitChar (x / 10), Nat.digitChar (x % 10)] := by
  by_cases h10 : x < 10
  · rw [pad, natChars_lt10 h10, Nat.div_eq_of_lt h10, Nat.mod_eq_of_lt h10]
    rfl
  · rw [pad, natChars_lt100 (by omega) h]
    rfl

theorem pad_three {x : Nat} (h : x < 1000) :
    pad 3 x =
      [Nat.digitChar (x / 100), Nat.digitChar (x / 10 % 10), Nat.digitChar (x % 10)] := by
  by_cases h10 : x < 10
  · rw [pad, natChars_lt10 h10]
    have e1 : x / 100 = 0 := by omega
    have e2 : x / 10 % 10 = 0 := by omega
    rw [e1, e2, Nat.mod_eq_of_lt h10]
    rfl
  · by_cases h100 : x < 100
    · rw [pad, natChars_lt100 (by omega) h100]
      have e1 : x / 100 = 0 := by omega
      have e2 : x / 10 % 10 = x / 10 := by omega
      rw [e1, e2]
      rfl
    · rw [pad, natChars_lt1000 (by omega) h]
      rfl

theorem digitChar_toNat {d : Nat} (h : d < 10) : (Nat.digitChar d).toNat = d + 48 := by
  interval_cases d <;> rfl

theorem digitChar_isDigit {d : Nat} (h : d < 10) : (Nat.digitChar d).isDigit = true := by
  interval_cases d <;> rfl

theorem isDigit_toNat {c : Char} (h : c.isDigit = true) :
    48 ≤ c.toNat ∧ c.toNat ≤ 57 := by
  simp only [Char.isDigit, Bool.and_eq_true, decide_eq_true_eq] at h
  exact ⟨h.1, h.2⟩

theorem natOfDigits_go (l : List Char) :
    ∀ a : Nat,
      l.foldl (fun a c => 10 * a + (c.toNat - '0'.toNat)) a =
        a * 10 ^ l.length + natOfDigits l := by
  induction l with
  | nil => intro a; simp [natOfDigits]
  | cons c t ih =>
    intro a
    simp only [List.foldl_cons, natOfDigits] at *
    rw [ih, ih (10 * 0 + (c.toNat - '0'.toNat))]
    simp only [List.length_cons]
    ring

theorem natOfDigits_cons (c : Char) (t : List Char) :
    natOfDigits (c :: t) = (c.toNat - '0'.toNat) * 10 ^ t.length + natOfDigits t := by
  show List.foldl _ _ (c :: t) = _
  rw [List.foldl_cons, natOfDigits_go]
  ring_nf

theorem natOfDigits_append (l1 l2 : List Char) :
    natOfDigits (l1 ++ l2) = natOfDigits l1 * 10 ^ l2.length + natOfDigits l2 := by
  show List.foldl _ _ (l1 ++ l2) = _
  rw [List.foldl_append, natOfDigits_go]
  rfl

theorem natOfDigits_lt {l : List Char} (h : ∀ c ∈ l, c.isDigit = true) :
    natOfDigits l < 10 ^ l.length := by
  induction l with
  | nil => simp [natOfDigits]
  | cons c t ih =>
    rw [natOfDigits_cons]
    have hc := isDigit_toNat (h c (by simp))
    have hd : c.toNat - '0'.toNat ≤ 9 := by
      show c.toNat - 48 ≤ 9
      omega
    have ht := ih (fun x hx => h x (by simp [hx]))
    calc (c.toNat - '0'.toNat) * 10 ^ t.length + natOfDigits t
        ≤ 9 * 10 ^ t.length + natOfDigits t := by
          exact Nat.add_le_add_right (Nat.mul_le_mul_right _ hd) _
      _ < 9 * 10 ^ t.length + 10 ^ t.length := by omega
      _ = 10 ^ (t.length + 1) := by ring
      _ = 10 ^ (c :: t).length := by simp

theorem natOfDigits_pad_two {x : Nat} (h : x < 100) :
    natOfDigits (pad 2 x) = x := by
  rw [pad_two h, natOfDigits_cons, natOfDigits_cons]
  simp only [natOfDigits, List.length_cons, List.length_nil, List.foldl_nil]
  have e1 : (Nat.digitChar (x / 10)).toNat = x / 10 + 48 := digitChar_toNat (by omega)
  have e2 : (Nat.digitChar (x % 10)).toNat = x % 10 + 48 := digitChar_toNat (by omega)
  rw [e1, e2]
  show (x / 10 + 48 - 48) * 10 ^ 1 + ((x % 10 + 48 - 48) * 10 ^ 0 + 0) = x
  omega

theorem natOfDigits_pad_three {x : Nat} (h : x < 1000) :
    natOfDigits (pad 3 x) = x := by
  rw [pad_three h, natOfDigits_cons, natOfDigits_cons, natOfDigits_cons]
  simp only [natOfDigits, List.length_cons, List.length_nil, List.foldl_nil]
  have e1 : (Nat.digitChar (x / 100)).toNat = x / 100 + 48 := digitChar_toNat (by omega)
  have e2 : (Nat.digitChar (x / 10 % 10)).toNat = x / 10 % 10 + 48 :=
    digitChar_toNat (by omega)
  have e3 : (Nat.digitChar (x % 10)).toNat = x % 10 + 48 := digitChar_toNat (by omega)
  rw [e1, e2, e3]
  show (x / 100 + 48 - 48) * 10 ^ 2 + ((x / 10 % 10 + 48 - 48) * 10 ^ 1 +
    ((x % 10 + 48 - 48) * 10 ^ 0 + 0)) = x
  omega

theorem pad_two_length (x : Nat) (h : x < 100) : (pad 2 x).length = 2 := by
  rw [pad_two h]
  rfl

theorem pad_three_length (x : Nat) (h : x < 1000) : (pad 3 x).length = 3 := by
  rw [pad_three h]
  rfl

theorem pad_two_digits {x : Nat} (h : x < 100) :
    ∀ c ∈ pad 2 x, c.isDigit = true := by
  rw [pad_two h]
  intro c hc
  simp only [List.mem_cons, List.not_mem_nil, or_false] at hc
  rcases hc with rfl | rfl
  · exact digitChar_isDigit (by omega)
  · exact digitChar_isDigit (by omega)

theorem pad_three_digits {x : Nat} (h : x < 1000) :
    ∀ c ∈ pad 3 x, c.isDigit = true := by
  rw [pad_three h]
  intro c hc
  simp only [List.mem_cons, List.not_mem_nil, or_false] at hc
  rcases hc with rfl | rfl | rfl
  · exact digitChar_isDigit (by omega)
  · exact digitChar_isDigit (by omega)
  · exact digitChar_isDigit (by omega)

/-! ### Character classes and prefix structure -/

theorem charsetB_not_bracket {c : Char} (h : charsetB c = true) :
    (c == '[' || c == '<') = false := by
  simp only [charsetB, Bool.or_eq_true, beq_iff_eq] at h
  rcases h with (h | h) | h
  · have := isDigit_toNat h
    simp only [Bool.or_eq_false_iff, beq_eq_false_iff_ne, ne_eq]
    constructor
    · intro hc; subst hc; revert this; decide
    · intro hc; subst hc; revert this; decide
  · subst h; decide
  · subst h; decide

theorem digit_charsetB {c : Char} (h : c.isDigit = true) : charsetB c = true := by
  simp [charsetB, h]

theorem takeWhile_append_all {q : Char → Bool} {p : List Char}
    (h : ∀ c ∈ p, q c = true) (z : List Char) :
    List.takeWhile q (p ++ z) = p ++ List.takeWhile q z := by
  induction p with
  | nil => simp
  | cons c t ih =>
    have hc : q c = true := h c (by simp)
    simp [List.takeWhile_cons, hc, ih (fun x hx => h x (by simp [hx]))]

theorem takeWhile_nil_of_head {q : Char → Bool} {z : List Char}
    (h : ∀ c, z.head? = some c → q c = false) :
    List.takeWhile q z = [] := by
  cases z with
  | nil => rfl
  | cons c t =>
    have := h c rfl
    simp [List.takeWhile_cons, this]

theorem mem_takeWhile_q {q : Char → Bool} {l : List Char} {c : Char}
    (h : c ∈ l.takeWhile q) : q c = true := by
  induction l with
  | nil => simp at h
  | cons a t ih =>
    rw [List.takeWhile_cons] at h
    by_cases hq : q a = true
    · rw [if_pos hq] at h
      rcases List.mem_cons.mp h with rfl | h2
      · exact hq
      · exact ih h2
    · rw [if_neg hq] at h
      simp at h

theorem head_dropWhile_not {q : Char → Bool} (l : List Char) :
    ∀ c, (l.dropWhile q).head? = some c → q c = false := by
  induction l with
  | nil => intro c h; simp at h
  | cons a t ih =>
    intro c h
    rw [List.dropWhile_cons] at h
    by_cases hq : q a = true
    · rw [if_pos hq] at h
      exact ih c h
    · rw [if_neg hq] at h
      simp only [List.head?_cons, Option.some.injEq] at h
      subst h
      exact Bool.not_eq_true _ ▸ (by simpa using hq)

/-- The maximal body-character prefix. -/
def preOf (cs : List Char) : List Char :=
  cs.takeWhile charsetB

/-- The character right after the maximal body-character prefix. -/
def nextOf (cs : List Char) : Option Char :=
  (cs.drop (preOf cs).length).head?

theorem tokenAt_eq_pre_next (cs : List Char) :
    tokenAt cs =
      match shape (preOf cs), nextOf cs with
      | some g, some c =>
        if c == ']' || c == '>' then some (g, (preOf cs).length) else none
      | _, _ => none := rfl

theorem tokenAt_congr {x y : List Char} (hpre : preOf x = preOf y)
    (hnext : nextOf x = nextOf y) : tokenAt x = tokenAt y := by
  rw [tokenAt_eq_pre_next, tokenAt_eq_pre_next, hpre, hnext]

theorem preOf_decomp (cs : List Char) : cs = preOf cs ++ cs.dropWhile charsetB :=
  (List.takeWhile_append_dropWhile charsetB cs).symm

theorem drop_takeWhile_len (q : Char → Bool) (cs : List Char) :
    cs.drop (cs.takeWhile q).length = cs.dropWhile q := by
  induction cs with
  | nil => rfl
  | cons c t ih =>
    rw [List.takeWhile_cons, List.dropWhile_cons]
    by_cases h : q c = true
    · simp [h, ih]
    · simp [h]

theorem nextOf_eq_head_drop (cs : List Char) :
    nextOf cs = (cs.dropWhile charsetB).head? := by
  unfold nextOf preOf
  rw [drop_takeWhile_len]

theorem preOf_all (cs : List Char) : ∀ c ∈ preOf cs, charsetB c = true :=
  fun _ h => mem_takeWhile_q h

/-! ### Head and append structure of the rewriting scanners -/

theorem subScan_head (mode : Mode) (cs : List Char) :
    (subScan mode cs).head? = cs.head? := by
  cases cs with
  | nil => rfl
  | cons c rest =>
    rw [subScan_cons]
    by_cases hc : (c == '[' || c == '<') = true
    · rw [if_pos hc]
      cases htok : tokenAt rest with
      | none => rfl
      | some p => obtain ⟨g, n⟩ := p; rfl
    · rw [if_neg hc]
      rfl

theorem subScan_append_free (mode : Mode) {p : List Char}
    (h : ∀ c ∈ p, (c == '[' || c == '<') = false) (z : List Char) :
    subScan mode (p ++ z) = p ++ subScan mode z := by
  induction p with
  | nil => simp
  | cons c t ih =>
    rw [List.cons_append, subScan_cons, if_neg (by simp [h c (by simp)]),
      ih (fun x hx => h x (by simp [hx]))]
    rfl

theorem c1_head (cs : List Char) : (c1 cs).head? = cs.head? := by
  cases cs with
  | nil => rfl
  | cons a t =>
    rw [c1_cons]
    by_cases ht : c1Trig a t = true
    · rw [if_pos ht]; rfl
    · rw [if_neg ht]; rfl

theorem c2go_zero_head (cs : List Char) : (c2go 0 cs).head? = cs.head? := by
  cases cs with
  | nil => rfl
  | cons c t =>
    show (if c == '\n' then if (2:Nat) ≤ 0 then c2go 0 t else c :: c2go 1 t
      else c :: c2go 0 t).head? = _
    by_cases hc : (c == '\n') = true
    · rw [if_pos hc, if_neg (by omega)]
      rfl
    · rw [if_neg hc]
      rfl

/-! ### Shape analysis and reconstruction -/

/-- The optional fractional tail `(?:\.(\d{2,3}))?` as written text. -/
def fracPart (f : Option (List Char)) : List Char :=
  match f with
  | some fr => '.' :: fr
  | none => []

theorem takeWhile_digits_frac (f : Option (List Char)) :
    List.takeWhile Char.isDigit (fracPart f) = [] := by
  cases f <;> rfl

theorem shape_hourless {r1 r2 : List Char} {f : Option (List Char)}
    (d1 : ∀ c ∈ r1, c.isDigit = true) (l1 : 1 ≤ r1.length ∧ r1.length ≤ 3)
    (d2 : ∀ c ∈ r2, c.isDigit = true) (l2 : 1 ≤ r2.length ∧ r2.length ≤ 2)
    (df : ∀ fr, f = some fr → (∀ c ∈ fr, c.isDigit = true) ∧
      2 ≤ fr.length ∧ fr.length ≤ 3) :
    shape (r1 ++ ':' :: (r2 ++ fracPart f)) = some ⟨none, r1, r2, f⟩ := by
  have h1 : List.takeWhile Char.isDigit (r1 ++ ':' :: (r2 ++ fracPart f)) = r1 := by
    rw [takeWhile_append_all d1]
    simp [List.takeWhile_cons]
  have h2 : List.takeWhile Char.isDigit (r2 ++ fracPart f) = r2 := by
    rw [takeWhile_append_all d2, takeWhile_digits_frac, List.append_nil]
  simp only [shape, h1, List.drop_left]
  simp only [h2, List.drop_left]
  cases f with
  | none =>
    simp only [fracPart]
    rw [if_pos ⟨l1.1, l1.2, l2.1, l2.2⟩]
  | some fr =>
    obtain ⟨dfr, lfr⟩ := df fr rfl
    simp only [fracPart]
    have h3 : List.takeWhile Char.isDigit fr = fr :=
      List.takeWhile_eq_self_iff.mpr dfr
    simp only [h3, List.drop_length]
    rw [if_pos ⟨⟨l1.1, l1.2, l2.1, l2.2⟩, ⟨lfr.1, lfr.2⟩, trivial⟩]

theorem shape_hours {rh r1 r2 : List Char} {f : Option (List Char)}
    (dh : ∀ c ∈ rh, c.isDigit = true) (lh : 1 ≤ rh.length ∧ rh.length ≤ 2)
    (d1 : ∀ c ∈ r1, c.isDigit = true) (l1 : 1 ≤ r1.length ∧ r1.length ≤ 3)
    (d2 : ∀ c ∈ r2, c.isDigit = true) (l2 : 1 ≤ r2.length ∧ r2.length ≤ 2)
    (df : ∀ fr, f = some fr → (∀ c ∈ fr, c.isDigit = true) ∧
      2 ≤ fr.length ∧ fr.length ≤ 3) :
    shape (rh ++ ':' :: (r1 ++ ':' :: (r2 ++ fracPart f))) =
      some ⟨some rh, r1, r2, f⟩ := by
  have hh : List.takeWhile Char.isDigit
      (rh ++ ':' :: (r1 ++ ':' :: (r2 ++ fracPart f))) = rh := by
    rw [takeWhile_append_all dh]
    simp [List.takeWhile_cons]
  have h1 : List.takeWhile Char.isDigit (r1 ++ ':' :: (r2 ++ fracPart f)) = r1 := by
    rw [takeWhile_append_all d1]
    simp [List.takeWhile_cons]
  have h2 : List.takeWhile Char.isDigit (r2 ++ fracPart f) = r2 := by
    rw [takeWhile_append_all d2, takeWhile_digits_frac, List.append_nil]
  simp only [shape, hh, List.drop_left]
  simp only [h1, List.drop_left]
  simp only [h2, List.drop_left]
  rw [if_pos ⟨lh.1, lh.2, l1.1, l1.2, l2.1, l2.2⟩]
  cases f with
  | none => rfl
  | some fr =>
    obtain ⟨dfr, lfr⟩ := df fr rfl
    simp only [fracPart]
    have h3 : List.takeWhile Char.isDigit fr = fr :=
      List.takeWhile_eq_self_iff.mpr dfr
    simp only [h3, List.drop_length]
    rw [if_pos ⟨⟨lfr.1, lfr.2⟩, trivial⟩]

theorem shape_goodG {pre : List Char} {g : TsG} (h : shape pre = some g) :
    goodG g = true := by
  simp only [shape] at h
  split at h
  case _ t2 heq1 =>
    split at h
    case _ t4 heq2 =>
      split at h
      case isTrue hb =>
        split at h
        case _ heq3 =>
          obtain rfl := Option.some.inj h
          simp only [goodG, digitsB, List.all_eq_true, Bool.and_eq_true,
            decide_eq_true_eq]
          and_intros <;>
            first
              | (intro c hc; exact mem_takeWhile_q hc)
              | omega
              | trivial
        case _ t6 heq3 =>
          split at h
          case isTrue hb2 =>
            obtain rfl := Option.some.inj h
            simp only [goodG, digitsB, List.all_eq_true, Bool.and_eq_true,
              decide_eq_true_eq]
            and_intros <;>
              first
                | (intro c hc; exact mem_takeWhile_q hc)
                | omega
                | trivial
          case isFalse => exact absurd h (by simp)
        case _ => exact absurd h (by simp)
      case isFalse => exact absurd h (by simp)
    case _ heq2 =>
      split at h
      case isTrue hb =>
        obtain rfl := Option.some.inj h
        simp only [goodG, digitsB, List.all_eq_true, Bool.and_eq_true,
          decide_eq_true_eq]
        and_intros <;>
          first
            | (intro c hc; exact mem_takeWhile_q hc)
            | omega
            | trivial
      case isFalse => exact absurd h (by simp)
    case _ t4 heq2 =>
      split at h
      case isTrue hb =>
        obtain rfl := Option.some.inj h
        simp only [goodG, digitsB, List.all_eq_true, Bool.and_eq_true,
          decide_eq_true_eq]
        and_intros <;>
          first
            | (intro c hc; exact mem_takeWhile_q hc)
            | omega
            | trivial
      case isFalse => exact absurd h (by simp)
    case _ => exact absurd h (by simp)
  case _ => exact absurd h (by simp)

/-! ### Stability of `fix_timestamp` -/

/-- Frac-group well-formedness: two or three digits. -/
def fracOk (f : Option (List Char)) : Prop :=
  ∀ fr, f = some fr →
    (∀ c ∈ fr, c.isDigit = true) ∧ 2 ≤ fr.length ∧ fr.length ≤ 3

theorem ljustZ_take_two {r : List Char} (h : r.length = 2) :
    (ljustZ 2 r).take 2 = r := by
  have : ljustZ 2 r = r := by simp [ljustZ, h]
  rw [this, List.take_of_length_le (by omega)]

theorem ljustZ_eq_self {r : List Char} (h : r.length = 3) : ljustZ 3 r = r := by
  simp [ljustZ, h]

theorem msOfFrac_pad3 {x : Nat} (h : x < 1000) : msOfFrac (some (pad 3 x)) = x := by
  rw [msOfFrac, ljustZ_eq_self (pad_three_length x h), natOfDigits_pad_three h]

theorem goodG_frac {g : TsG} (hg : goodG g = true) : fracOk g.f := by
  intro fr hf
  simp only [goodG, Bool.and_eq_true] at hg
  have h2 := hg.2
  rw [hf] at h2
  simp only [digitsB, List.all_eq_true, Bool.and_eq_true, decide_eq_true_eq] at h2
  exact ⟨h2.1, h2.2⟩

theorem msOfFrac_lt {f : Option (List Char)} (hf : fracOk f) : msOfFrac f < 1000 := by
  cases f with
  | none => simp [msOfFrac]
  | some fr =>
    obtain ⟨hd, h2, h3⟩ := hf fr rfl
    have hlen : (ljustZ 3 fr).length = 3 := by
      simp only [ljustZ, List.length_append, List.length_replicate]
      omega
    have hdig : ∀ c ∈ ljustZ 3 fr, c.isDigit = true := by
      intro c hc
      rcases List.mem_append.mp hc with h | h
      · exact hd c h
      · rw [List.eq_of_mem_replicate h]
        rfl
    have := natOfDigits_lt hdig
    rw [hlen] at this
    simpa [msOfFrac] using this

theorem fracStable (mode : Mode) (f : Option (List Char)) (ms : Nat)
    (hfok : fracOk f) (hms : ms = msOfFrac f) (hmsb : ms < 1000) :
    ∃ fo, fixFrac mode f ms = fracPart fo ∧ fracOk fo ∧
      fixFrac mode fo (msOfFrac fo) = fixFrac mode f ms ∧
      ((mode = Mode.keep ∨ mode = Mode.forceXXX) →
        msOfFrac fo = (if f.isSome then ms else 0)) := by
  cases mode with
  | keep =>
    cases f with
    | none =>
      refine ⟨none, rfl, ?_, rfl, fun _ => rfl⟩
      intro fr h
      cases h
    | some r =>
      obtain ⟨hd, hl2, hl3⟩ := hfok r rfl
      by_cases h2 : r.length = 2
      · refine ⟨some r, ?_, ?_, ?_, ?_⟩
        · simp [fixFrac, h2, ljustZ_take_two h2, fracPart]
        · exact fun fr h => by cases h; exact ⟨hd, hl2, hl3⟩
        · simp [fixFrac, h2]
        · intro _
          simp only [Option.isSome_some, if_true]
          exact hms.symm
      · have h3 : r.length = 3 := by omega
        refine ⟨some (pad 3 ms), ?_, ?_, ?_, ?_⟩
        · simp [fixFrac, h2, h3, fracPart]
        · intro fr h
          cases h
          exact ⟨pad_three_digits hmsb, by rw [pad_three_length ms hmsb]; omega⟩
        · have hlen : (pad 3 ms).length = 3 := pad_three_length ms hmsb
          simp [fixFrac, hlen, msOfFrac_pad3 hmsb, h2, h3]
        · intro _
          simp only [Option.isSome_some, if_true]
          exact msOfFrac_pad3 hmsb
  | forceXX =>
    cases f with
    | none =>
      refine ⟨some ['0', '0'], ?_, ?_, ?_, ?_⟩
      · rfl
      · intro fr h; cases h
        exact ⟨by intro c hc; simp only [List.mem_cons, List.not_mem_nil,
          or_false] at hc; rcases hc with rfl | rfl <;> rfl, by simp, by simp⟩
      · rfl
      · intro h; rcases h with h | h <;> cases h
    | some r =>
      obtain ⟨hd, hl2, hl3⟩ := hfok r rfl
      have hl : ((ljustZ 2 r).take 2).length = 2 := by
        have : ljustZ 2 r = r := by simp [ljustZ, show 2 - r.length = 0 by omega]
        rw [this, List.length_take]
        omega
      refine ⟨some ((ljustZ 2 r).take 2), rfl, ?_, ?_, ?_⟩
      · intro fr h; cases h
        refine ⟨?_, by omega, by omega⟩
        intro c hc
        have : ljustZ 2 r = r := by simp [ljustZ, show 2 - r.length = 0 by omega]
        rw [this] at hc
        exact hd c (List.mem_of_mem_take hc)
      · simp [fixFrac, ljustZ_take_two hl]
      · intro h; rcases h with h | h <;> cases h
  | forceXXX =>
    cases f with
    | none =>
      refine ⟨some ['0', '0', '0'], rfl, ?_, ?_, ?_⟩
      · intro fr h; cases h
        exact ⟨by intro c hc; simp only [List.mem_cons, List.not_mem_nil,
          or_false] at hc; rcases hc with rfl | rfl | rfl <;> rfl, by simp, by simp⟩
      · show fixFrac Mode.forceXXX (some ['0', '0', '0'])
            (msOfFrac (some ['0', '0', '0'])) = ['.', '0', '0', '0']
        decide
      · intro _
        show msOfFrac (some ['0', '0', '0']) = 0
        decide
    | some r =>
      refine ⟨some (pad 3 ms), rfl, ?_, ?_, ?_⟩
      · intro fr h; cases h
        exact ⟨pad_three_digits hmsb, by rw [pad_three_length ms hmsb]; omega⟩
      · simp [fixFrac, msOfFrac_pad3 hmsb]
      · intro _
        simp only [Option.isSome_some, if_true]
        exact msOfFrac_pad3 hmsb

theorem shape_fixBase {H M S : Nat} (hH : H < 100) (hM : M < 100) (hS : S < 100)
    {fo : Option (List Char)} (hfo : fracOk fo) :
    shape (fixBase H M S ++ fracPart fo) =
      some ⟨if H ≠ 0 then some (pad 2 H) else none, pad 2 M, pad 2 S, fo⟩ := by
  have dM := pad_two_digits hM
  have dS := pad_two_digits hS
  have lM : (pad 2 M).length = 2 := pad_two_length M hM
  have lS : (pad 2 S).length = 2 := pad_two_length S hS
  by_cases hH0 : H = 0
  · rw [fixBase, if_neg (by omega), if_neg (by omega),
      List.append_assoc, List.cons_append]
    exact shape_hourless dM (by omega) dS (by omega) hfo
  · rw [fixBase, if_pos (by omega), if_pos (by omega)]
    have dH := pad_two_digits hH
    have lH : (pad 2 H).length = 2 := pad_two_length H hH
    rw [List.append_assoc, List.cons_append, List.append_assoc, List.cons_append]
    exact shape_hours dH (by omega) dM (by omega) dS (by omega) hfo

theorem goodG_mk {H M S : Nat} (hH : H < 100) (hM : M < 100) (hS : S < 100)
    {fo : Option (List Char)} (hfo : fracOk fo) :
    goodG ⟨if H ≠ 0 then some (pad 2 H) else none, pad 2 M, pad 2 S, fo⟩ = true := by
  have lM : (pad 2 M).length = 2 := pad_two_length M hM
  have lS : (pad 2 S).length = 2 := pad_two_length S hS
  by_cases hH0 : H = 0
  · rw [if_neg (by omega)]
    cases fo with
    | none =>
      simp only [goodG, digitsB, Bool.and_eq_true, List.all_eq_true,
        decide_eq_true_eq]
      and_intros <;>
        first
          | exact pad_two_digits hM
          | exact pad_two_digits hS
          | omega
          | trivial
    | some fr =>
      obtain ⟨hd, hb⟩ := hfo fr rfl
      simp only [goodG, digitsB, Bool.and_eq_true, List.all_eq_true,
        decide_eq_true_eq]
      and_intros <;>
        first
          | exact pad_two_digits hM
          | exact pad_two_digits hS
          | exact hd
          | omega
          | trivial
  · rw [if_pos (by omega)]
    have lH : (pad 2 H).length = 2 := pad_two_length H hH
    cases fo with
    | none =>
      simp only [goodG, digitsB, Bool.and_eq_true, List.all_eq_true,
        decide_eq_true_eq]
      and_intros <;>
        first
          | exact pad_two_digits hH
          | exact pad_two_digits hM
          | exact pad_two_digits hS
          | omega
          | trivial
    | some fr =>
      obtain ⟨hd, hb⟩ := hfo fr rfl
      simp only [goodG, digitsB, Bool.and_eq_true, List.all_eq_true,
        decide_eq_true_eq]
      and_intros <;>
        first
          | exact pad_two_digits hH
          | exact pad_two_digits hM
          | exact pad_two_digits hS
          | exact hd
          | omega
          | trivial

theorem tsTotalMs_mk {H M S : Nat} (hH : H < 100) (hM : M < 100) (hS : S < 100)
    (fo : Option (List Char)) :
    tsTotalMs ⟨if H ≠ 0 then some (pad 2 H) else none, pad 2 M, pad 2 S, fo⟩ =
      3600000 * H + 60000 * M + 1000 * S + msOfFrac fo := by
  have hh : hoursN ⟨if H ≠ 0 then some (pad 2 H) else none,
      pad 2 M, pad 2 S, fo⟩ = H := by
    by_cases hH0 : H = 0
    · rw [if_neg (by omega)]
      simp [hoursN, hH0]
    · rw [if_pos (by omega)]
      simp [hoursN, natOfDigits_pad_two hH]
  rw [tsTotalMs, hh]
  dsimp only
  rw [natOfDigits_pad_two hM, natOfDigits_pad_two hS]

/-- Key stability lemma: `fix_timestamp`'s output re-parses as a timestamp
token whose own rewriting is unchanged; in `keep` and `force.xxx` mode the
output token's value is the input value modulo 24 hours. -/
theorem fixTs_stable (mode : Mode) {g : TsG} (hg : goodG g = true) :
    ∃ g', shape (fixTs mode g) = some g' ∧ goodG g' = true ∧
      fixTs mode g' = fixTs mode g ∧
      ((mode = Mode.keep ∨ mode = Mode.forceXXX) →
        tsTotalMs g' = tsTotalMs g % 86400000) := by
  have hfok := goodG_frac hg
  have hmslt : msOfFrac g.f < 1000 := msOfFrac_lt hfok
  have hmseq : tsTotalMs g % 1000 = msOfFrac g.f := by
    rw [tsTotalMs]
    omega
  obtain ⟨fo, hf1, hf2, hf3, hf4⟩ :=
    fracStable mode g.f (tsTotalMs g % 1000) hfok hmseq (by omega)
  have hmf : msOfFrac fo < 1000 := msOfFrac_lt hf2
  set T := tsTotalMs g with hT
  set A := T / 1000 % 86400 with hA
  have hAlt : A < 86400 := by omega
  refine ⟨⟨if A / 3600 ≠ 0 then some (pad 2 (A / 3600)) else none,
      pad 2 (A % 3600 / 60), pad 2 (A % 60), fo⟩, ?_, ?_, ?_, ?_⟩
  · have e : fixTs mode g =
        fixBase (A / 3600) (A % 3600 / 60) (A % 60) ++ fixFrac mode g.f (T % 1000) :=
      rfl
    rw [e, hf1]
    exact shape_fixBase (by omega) (by omega) (by omega) hf2
  · exact goodG_mk (by omega) (by omega) (by omega) hf2
  · have hTg' : tsTotalMs ⟨if A / 3600 ≠ 0 then some (pad 2 (A / 3600)) else none,
        pad 2 (A % 3600 / 60), pad 2 (A % 60), fo⟩ =
        3600000 * (A / 3600) + 60000 * (A % 3600 / 60) + 1000 * (A % 60) +
          msOfFrac fo :=
      tsTotalMs_mk (by omega) (by omega) (by omega) fo
    have e : fixTs mode ⟨if A / 3600 ≠ 0 then some (pad 2 (A / 3600)) else none,
        pad 2 (A % 3600 / 60), pad 2 (A % 60), fo⟩ =
        fixBase (tsTotalMs ⟨if A / 3600 ≠ 0 then some (pad 2 (A / 3600)) else none,
            pad 2 (A % 3600 / 60), pad 2 (A % 60), fo⟩ / 1000 % 86400 / 3600)
          (tsTotalMs ⟨if A / 3600 ≠ 0 then some (pad 2 (A / 3600)) else none,
            pad 2 (A % 3600 / 60), pad 2 (A % 60), fo⟩ / 1000 % 86400 % 3600 / 60)
          (tsTotalMs ⟨if A / 3600 ≠ 0 then some (pad 2 (A / 3600)) else none,
            pad 2 (A % 3600 / 60), pad 2 (A % 60), fo⟩ / 1000 % 86400 % 60) ++
        fixFrac mode fo
          (tsTotalMs ⟨if A / 3600 ≠ 0 then some (pad 2 (A / 3600)) else none,
            pad 2 (A % 3600 / 60), pad 2 (A % 60), fo⟩ % 1000) := rfl
    rw [e, hTg']
    have e1 : (3600000 * (A / 3600) + 60000 * (A % 3600 / 60) + 1000 * (A % 60) +
        msOfFrac fo) / 1000 % 86400 / 3600 = A / 3600 := by omega
    have e2 : (3600000 * (A / 3600) + 60000 * (A % 3600 / 60) + 1000 * (A % 60) +
        msOfFrac fo) / 1000 % 86400 % 3600 / 60 = A % 3600 / 60 := by omega
    have e3 : (3600000 * (A / 3600) + 60000 * (A % 3600 / 60) + 1000 * (A % 60) +
        msOfFrac fo) / 1000 % 86400 % 60 = A % 60 := by omega
    have e4 : (3600000 * (A / 3600) + 60000 * (A % 3600 / 60) + 1000 * (A % 60) +
        msOfFrac fo) % 1000 = msOfFrac fo := by omega
    rw [e1, e2, e3, e4, hf3]
    rfl
  · intro hmode
    have hval := hf4 hmode
    have hTg' : tsTotalMs ⟨if A / 3600 ≠ 0 then some (pad 2 (A / 3600)) else none,
        pad 2 (A % 3600 / 60), pad 2 (A % 60), fo⟩ =
        3600000 * (A / 3600) + 60000 * (A % 3600 / 60) + 1000 * (A % 60) +
          msOfFrac fo :=
      tsTotalMs_mk (by omega) (by omega) (by omega) fo
    rw [hTg']
    cases hgf : g.f with
    | some fr =>
      rw [hgf] at hval
      simp only [Option.isSome_some, if_true] at hval
      omega
    | none =>
      rw [hgf] at hval hmseq
      simp only [Option.isSome_none] at hval
      simp only [msOfFrac] at hmseq
      rw [if_neg (by simp)] at hval
      omega

/-! ### Token occurrences and `ssfix` -/

theorem tokenAt_some {cs : List Char} {g : TsG} {n : Nat}
    (h : tokenAt cs = some (g, n)) :
    shape (preOf cs) = some g ∧ n = (preOf cs).length ∧
      ∃ c, nextOf cs = some c ∧ (c == ']' || c == '>') = true := by
  rw [tokenAt_eq_pre_next] at h
  cases hs : shape (preOf cs) with
  | none => rw [hs] at h; cases hn : nextOf cs <;> rw [hn] at h <;> simp at h
  | some g0 =>
    rw [hs] at h
    cases hn : nextOf cs with
    | none => rw [hn] at h; simp at h
    | some c =>
      rw [hn] at h
      dsimp only at h
      by_cases hb : (c == ']' || c == '>') = true
      · rw [if_pos hb] at h
        simp only [Option.some.injEq, Prod.mk.injEq] at h
        obtain ⟨rfl, rfl⟩ := h
        exact ⟨rfl, rfl, c, rfl, hb⟩
      · rw [if_neg hb] at h
        simp at h

theorem tokenAt_mk {cs : List Char} {g : TsG} {c : Char}
    (hs : shape (preOf cs) = some g) (hn : nextOf cs = some c)
    (hb : (c == ']' || c == '>') = true) :
    tokenAt cs = some (g, (preOf cs).length) := by
  rw [tokenAt_eq_pre_next, hs, hn]
  dsimp only
  rw [if_pos hb]

theorem preOf_append_charset {p X : List Char}
    (hp : ∀ c ∈ p, charsetB c = true)
    (hX : ∀ c, X.head? = some c → charsetB c = false) :
    preOf (p ++ X) = p ∧ nextOf (p ++ X) = X.head? := by
  have h1 : preOf (p ++ X) = p := by
    unfold preOf
    rw [takeWhile_append_all hp, takeWhile_nil_of_head hX, List.append_nil]
  refine ⟨h1, ?_⟩
  unfold nextOf
  rw [h1, List.drop_left]

theorem bracket_not_charset {c : Char} (h : (c == ']' || c == '>') = true) :
    charsetB c = false := by
  rcases Bool.or_eq_true _ _ |>.mp h with h1 | h1
  · rw [beq_iff_eq] at h1; subst h1; rfl
  · rw [beq_iff_eq] at h1; subst h1; rfl

theorem fixTs_charset (mode : Mode) {g : TsG} (hg : goodG g = true) :
    ∀ c ∈ fixTs mode g, charsetB c = true := by
  have hfok := goodG_frac hg
  intro c hc
  have e : fixTs mode g =
      fixBase (tsTotalMs g / 1000 % 86400 / 3600)
        (tsTotalMs g / 1000 % 86400 % 3600 / 60)
        (tsTotalMs g / 1000 % 86400 % 60) ++
      fixFrac mode g.f (tsTotalMs g % 1000) := rfl
  rw [e] at hc
  rcases List.mem_append.mp hc with hm | hm
  · -- base part
    unfold fixBase at hm
    have hd2 : ∀ x, x < 100 → ∀ d ∈ pad 2 x, charsetB d = true :=
      fun x hx d hd => digit_charsetB (pad_two_digits hx d hd)
    split at hm
    · rcases List.mem_append.mp hm with h1 | h1
      · exact hd2 _ (by omega) c h1
      · rcases List.mem_cons.mp h1 with rfl | h2
        · rfl
        · rcases List.mem_append.mp h2 with h3 | h3
          · exact hd2 _ (by omega) c h3
          · rcases List.mem_cons.mp h3 with rfl | h4
            · rfl
            · exact hd2 _ (by omega) c h4
    · rcases List.mem_append.mp hm with h1 | h1
      · exact hd2 _ (by omega) c h1
      · rcases List.mem_cons.mp h1 with rfl | h2
        · rfl
        · exact hd2 _ (by omega) c h2
  · -- frac part
    have hd3 : ∀ d ∈ pad 3 (tsTotalMs g % 1000), charsetB d = true :=
      fun d hd => digit_charsetB (pad_three_digits (by omega) d hd)
    cases mode with
    | keep =>
      cases hgf : g.f with
      | none => rw [hgf] at hm; simp [fixFrac] at hm
      | some r =>
        rw [hgf] at hm
        obtain ⟨hd, hb2, hb3⟩ := hfok r hgf
        simp only [fixFrac] at hm
        split at hm
        · rcases List.mem_cons.mp hm with rfl | h2
          · rfl
          · have : ljustZ 2 r = r := by
              simp [ljustZ, show 2 - r.length = 0 by omega]
            rw [this] at h2
            exact digit_charsetB (hd c (List.mem_of_mem_take h2))
        · split at hm
          · rcases List.mem_cons.mp hm with rfl | h2
            · rfl
            · exact hd3 c h2
          · simp at hm
    | forceXX =>
      cases hgf : g.f with
      | none =>
        rw [hgf] at hm
        simp only [fixFrac, List.mem_cons, List.not_mem_nil, or_false] at hm
        rcases hm with rfl | rfl | rfl <;> rfl
      | some r =>
        rw [hgf] at hm
        obtain ⟨hd, hb2, hb3⟩ := hfok r hgf
        simp only [fixFrac] at hm
        rcases List.mem_cons.mp hm with rfl | h2
        · rfl
        · have : ljustZ 2 r = r := by
            simp [ljustZ, show 2 - r.length = 0 by omega]
          rw [this] at h2
          exact digit_charsetB (hd c (List.mem_of_mem_take h2))
    | forceXXX =>
      cases hgf : g.f with
      | none =>
        rw [hgf] at hm
        simp only [fixFrac, List.mem_cons, List.not_mem_nil, or_false] at hm
        rcases hm with rfl | rfl | rfl | rfl <;> rfl
      | some r =>
        rw [hgf] at hm
        simp only [fixFrac] at hm
        rcases List.mem_cons.mp hm with rfl | h2
        · rfl
        · exact hd3 c h2

theorem ssfix_cons (mode : Mode) (c : Char) (rest : List Char) :
    ssfix mode (c :: rest) =
      ((if c == '[' || c == '<' then
          match tokenAt rest with
          | some (g, n) => rest.take n == fixTs mode g
          | none => true
        else true) && ssfix mode rest) := rfl

theorem ssfix_tail {mode : Mode} {c : Char} {rest : List Char}
    (h : ssfix mode (c :: rest) = true) : ssfix mode rest = true := by
  rw [ssfix_cons, Bool.and_eq_true] at h
  exact h.2

theorem ssfix_suffix {mode : Mode} :
    ∀ {l1 l2 : List Char}, l2 <:+ l1 → ssfix mode l1 = true → ssfix mode l2 = true := by
  intro l1
  induction l1 with
  | nil =>
    intro l2 h hs
    rw [List.suffix_nil.mp h]
    exact hs
  | cons c t ih =>
    intro l2 h hs
    rcases List.suffix_cons_iff.mp h with h1 | h1
    · rw [h1]; exact hs
    · exact ih h1 (ssfix_tail hs)

theorem ssfix_append_free {mode : Mode} {p : List Char}
    (hp : ∀ c ∈ p, (c == '[' || c == '<') = false) (z : List Char) :
    ssfix mode (p ++ z) = ssfix mode z := by
  induction p with
  | nil => rfl
  | cons c t ih =>
    rw [List.cons_append, ssfix_cons, if_neg (by simp [hp c (by simp)]),
      Bool.true_and, ih (fun x hx => hp x (by simp [hx]))]

theorem take_preOf (y : List Char) : y.take (preOf y).length = preOf y := by
  calc y.take (preOf y).length
      = (preOf y ++ y.dropWhile charsetB).take (preOf y).length := by
        rw [← preOf_decomp y]
    _ = preOf y := List.take_left _ _

theorem subScan_eq_self_aux (mode : Mode) :
    ∀ n (cs : List Char), cs.length ≤ n → ssfix mode cs = true →
      subScan mode cs = cs := by
  intro n
  induction n with
  | zero =>
    intro cs hlen _
    have : cs = [] := List.eq_nil_of_length_eq_zero (Nat.le_zero.mp hlen)
    subst this
    rfl
  | succ n ih =>
    intro cs hlen h
    cases cs with
    | nil => rfl
    | cons c rest =>
      simp only [List.length_cons] at hlen
      rw [ssfix_cons, Bool.and_eq_true] at h
      obtain ⟨h1, h2⟩ := h
      rw [subScan_cons]
      by_cases hc : (c == '[' || c == '<') = true
      · rw [if_pos hc]
        rw [if_pos hc] at h1
        cases htok : tokenAt rest with
        | none =>
          dsimp only
          rw [ih rest (by omega) h2]
        | some p =>
          obtain ⟨g, n'⟩ := p
          rw [htok] at h1
          dsimp only at h1 ⊢
          have htake : rest.take n' = fixTs mode g := by simpa using h1
          rw [ih (rest.drop n') (by simp only [List.length_drop]; omega)
            (ssfix_suffix (List.drop_suffix _ _) h2)]
          rw [← htake, List.take_append_drop]
      · rw [if_neg hc]
        rw [ih rest (by omega) h2]

/-- A text every token occurrence of which is `fix_timestamp`-stable is a
fixed point of the token-rewriting pass. -/
theorem subScan_eq_self {mode : Mode} {cs : List Char}
    (h : ssfix mode cs = true) : subScan mode cs = cs :=
  subScan_eq_self_aux mode cs.length cs le_rfl h

theorem pre_next_cons_charset {a : Char} (ha : charsetB a = true) (z : List Char) :
    preOf (a :: z) = a :: preOf z ∧ nextOf (a :: z) = nextOf z := by
  constructor
  · simp [preOf, List.takeWhile_cons, ha]
  · rw [nextOf_eq_head_drop, nextOf_eq_head_drop, List.dropWhile_cons, if_pos ha]

theorem pre_next_cons_other {a : Char} (ha : charsetB a = false) (z : List Char) :
    preOf (a :: z) = [] ∧ nextOf (a :: z) = some a := by
  constructor
  · simp [preOf, List.takeWhile_cons, ha]
  · rw [nextOf_eq_head_drop, List.dropWhile_cons, if_neg (by simp [ha])]
    rfl

theorem pre_next_subScan (mode : Mode) (cs : List Char) :
    preOf (subScan mode cs) = preOf cs ∧ nextOf (subScan mode cs) = nextOf cs := by
  have hp := preOf_all cs
  have h1 : subScan mode cs = preOf cs ++ subScan mode (cs.dropWhile charsetB) := by
    conv_lhs => rw [preOf_decomp cs]
    rw [subScan_append_free mode (fun c hc => charsetB_not_bracket (hp c hc))]
  have hX : ∀ c, (subScan mode (cs.dropWhile charsetB)).head? = some c →
      charsetB c = false := by
    intro c hc
    rw [subScan_head] at hc
    exact head_dropWhile_not _ c hc
  obtain ⟨hpre, hnext⟩ := preOf_append_charset hp hX
  refine ⟨by rw [h1, hpre], ?_⟩
  rw [h1, hnext, subScan_head, ← nextOf_eq_head_drop]

theorem tokenAt_subScan (mode : Mode) (cs : List Char) :
    tokenAt (subScan mode cs) = tokenAt cs :=
  tokenAt_congr (pre_next_subScan mode cs).1 (pre_next_subScan mode cs).2

theorem ssfix_subScan_aux (mode : Mode) :
    ∀ n (cs : List Char), cs.length ≤ n → ssfix mode (subScan mode cs) = true := by
  intro n
  induction n with
  | zero =>
    intro cs hlen
    have : cs = [] := List.eq_nil_of_length_eq_zero (Nat.le_zero.mp hlen)
    subst this
    rfl
  | succ n ih =>
    intro cs hlen
    cases cs with
    | nil => rfl
    | cons c rest =>
      simp only [List.length_cons] at hlen
      rw [subScan_cons]
      by_cases hc : (c == '[' || c == '<') = true
      · rw [if_pos hc]
        cases htok : tokenAt rest with
        | none =>
          dsimp only
          rw [ssfix_cons, Bool.and_eq_true]
          refine ⟨?_, ih rest (by omega)⟩
          rw [if_pos hc, tokenAt_subScan mode rest, htok]
        | some p =>
          obtain ⟨g, n'⟩ := p
          dsimp only
          obtain ⟨hsh, hn', c', hnx, hb⟩ := tokenAt_some htok
          have hg : goodG g = true := shape_goodG hsh
          obtain ⟨g', hshape', hgood', hfix', _⟩ := fixTs_stable mode hg
          have hXhead : (subScan mode (rest.drop n')).head? = (rest.drop n').head? :=
            subScan_head mode _
          have hdrop_head : (rest.drop n').head? = some c' := by
            rw [hn']
            exact hnx
          have hfixcs : ∀ d ∈ fixTs mode g, charsetB d = true := fixTs_charset mode hg
          have hXbad : ∀ d, (subScan mode (rest.drop n')).head? = some d →
              charsetB d = false := by
            intro d hd
            rw [hXhead, hdrop_head] at hd
            obtain rfl := Option.some.inj hd
            exact bracket_not_charset hb
          obtain ⟨hpreT, hnextT⟩ := preOf_append_charset hfixcs hXbad
          have htokT : tokenAt (fixTs mode g ++ subScan mode (rest.drop n')) =
              some (g', (fixTs mode g).length) := by
            have hs2 : shape (preOf (fixTs mode g ++ subScan mode (rest.drop n'))) =
                some g' := by
              rw [hpreT]
              exact hshape'
            have h2 : nextOf (fixTs mode g ++ subScan mode (rest.drop n')) =
                some c' := by
              rw [hnextT, hXhead, hdrop_head]
            have h3 := tokenAt_mk hs2 h2 hb
            rw [hpreT] at h3
            exact h3
          rw [ssfix_cons, Bool.and_eq_true]
          constructor
          · rw [if_pos hc, htokT]
            dsimp only
            rw [List.take_left, beq_iff_eq]
            exact hfix'.symm
          · rw [ssfix_append_free (fun d hd => charsetB_not_bracket (hfixcs d hd))]
            exact ih (rest.drop n') (by simp only [List.length_drop]; omega)
      · rw [if_neg hc]
        rw [ssfix_cons, Bool.and_eq_true]
        exact ⟨by rw [if_neg hc], ih rest (by omega)⟩

/-- Every token occurrence in the output of the token-rewriting pass is
stable. -/
theorem ssfix_subScan (mode : Mode) (cs : List Char) :
    ssfix mode (subScan mode cs) = true :=
  ssfix_subScan_aux mode cs.length cs le_rfl

theorem charsetB_rsq : charsetB ']' = false := rfl

theorem charsetB_not_nl {c : Char} (h : charsetB c = true) : (c == '\n') = false := by
  simp only [charsetB, Bool.or_eq_true, beq_iff_eq] at h
  rcases h with (h | h) | h
  · have := isDigit_toNat h
    simp only [beq_eq_false_iff_ne, ne_eq]
    intro hc
    subst hc
    revert this
    decide
  · subst h; decide
  · subst h; decide

theorem c1Trig_digits {a : Char} {t : List Char} (h : c1Trig a t = true) :
    a.isDigit = true := by
  unfold c1Trig at h
  split at h
  · exact (Bool.and_eq_true _ _ |>.mp (Bool.and_eq_true _ _ |>.mp h).1).1
  · simp at h

theorem pre_next_c1_aux :
    ∀ n (cs : List Char), cs.length ≤ n →
      preOf (c1 cs) = preOf cs ∧ nextOf (c1 cs) = nextOf cs := by
  intro n
  induction n with
  | zero =>
    intro cs hlen
    have : cs = [] := List.eq_nil_of_length_eq_zero (Nat.le_zero.mp hlen)
    subst this
    exact ⟨rfl, rfl⟩
  | succ n ih =>
    intro cs hlen
    cases cs with
    | nil => exact ⟨rfl, rfl⟩
    | cons a t =>
      simp only [List.length_cons] at hlen
      rw [c1_cons]
      by_cases htr : c1Trig a t = true
      · rw [if_pos htr]
        unfold c1Trig at htr
        split at htr
        case _ b tt =>
          have ha : a.isDigit = true :=
            (Bool.and_eq_true _ _ |>.mp (Bool.and_eq_true _ _ |>.mp htr).1).1
          have hb : b.isDigit = true :=
            (Bool.and_eq_true _ _ |>.mp (Bool.and_eq_true _ _ |>.mp htr).1).2
          have hca := digit_charsetB ha
          have hcb := digit_charsetB hb
          dsimp only [List.take, List.drop]
          constructor
          · rw [List.cons_append, List.cons_append, List.nil_append,
              (pre_next_cons_charset hca _).1, (pre_next_cons_charset hca _).1,
              (pre_next_cons_charset hcb _).1, (pre_next_cons_charset hcb _).1,
              (pre_next_cons_other charsetB_rsq _).1,
              (pre_next_cons_other charsetB_rsq _).1]
          · rw [List.cons_append, List.cons_append, List.nil_append,
              (pre_next_cons_charset hca _).2, (pre_next_cons_charset hca _).2,
              (pre_next_cons_charset hcb _).2, (pre_next_cons_charset hcb _).2,
              (pre_next_cons_other charsetB_rsq _).2,
              (pre_next_cons_other charsetB_rsq _).2]
        case _ => simp at htr
      · rw [if_neg htr]
        obtain ⟨h1, h2⟩ := ih t (by omega)
        by_cases hch : charsetB a = true
        · constructor
          · rw [(pre_next_cons_charset hch _).1, (pre_next_cons_charset hch _).1, h1]
          · rw [(pre_next_cons_charset hch _).2, (pre_next_cons_charset hch _).2, h2]
        · have hch' : charsetB a = false := by simpa using hch
          constructor
          · rw [(pre_next_cons_other hch' _).1, (pre_next_cons_other hch' _).1]
          · rw [(pre_next_cons_other hch' _).2, (pre_next_cons_other hch' _).2]

theorem pre_next_c1 (cs : List Char) :
    preOf (c1 cs) = preOf cs ∧ nextOf (c1 cs) = nextOf cs :=
  pre_next_c1_aux cs.length cs le_rfl

theorem tokenAt_c1 (cs : List Char) : tokenAt (c1 cs) = tokenAt cs :=
  tokenAt_congr (pre_next_c1 cs).1 (pre_next_c1 cs).2

theorem digit_not_bracket {a : Char} (h : a.isDigit = true) :
    (a == '[' || a == '<') = false :=
  charsetB_not_bracket (digit_charsetB h)

/-- The take-condition of `ssfix` transfers along a `preOf`/`nextOf`-preserving
transformation. -/
theorem ssfix_cond_transfer {mode : Mode} {t u : List Char}
    (hpre : preOf u = preOf t) (hnext : nextOf u = nextOf t)
    (hcond : (if True then
        match tokenAt t with
        | some (g, n) => t.take n == fixTs mode g
        | none => true
      else true) = true) :
    (match tokenAt u with
      | some (g, n) => u.take n == fixTs mode g
      | none => true) = true := by
  rw [tokenAt_congr hpre hnext]
  simp only [if_true] at hcond
  cases htok : tokenAt t with
  | none => rfl
  | some p =>
    obtain ⟨g, n⟩ := p
    rw [htok] at hcond
    dsimp only at hcond ⊢
    obtain ⟨_, hn, _⟩ := tokenAt_some htok
    have h1 : u.take n = preOf u := by
      rw [hn, ← hpre, take_preOf]
    have h2 : t.take n = preOf t := by
      rw [hn, take_preOf]
    rw [h1, hpre, ← h2]
    exact hcond

theorem ssfix_c1_aux (mode : Mode) :
    ∀ n (cs : List Char), cs.length ≤ n → ssfix mode cs = true →
      ssfix mode (c1 cs) = true := by
  intro n
  induction n with
  | zero =>
    intro cs hlen _
    have : cs = [] := List.eq_nil_of_length_eq_zero (Nat.le_zero.mp hlen)
    subst this
    rfl
  | succ n ih =>
    intro cs hlen h
    cases cs with
    | nil => rfl
    | cons a t =>
      simp only [List.length_cons] at hlen
      rw [ssfix_cons, Bool.and_eq_true] at h
      obtain ⟨h1, h2⟩ := h
      rw [c1_cons]
      by_cases htr : c1Trig a t = true
      · rw [if_pos htr]
        unfold c1Trig at htr
        split at htr
        case _ b tt =>
          have ha : a.isDigit = true :=
            (Bool.and_eq_true _ _ |>.mp (Bool.and_eq_true _ _ |>.mp htr).1).1
          have hb : b.isDigit = true :=
            (Bool.and_eq_true _ _ |>.mp (Bool.and_eq_true _ _ |>.mp htr).1).2
          dsimp only [List.take, List.drop]
          rw [List.cons_append, List.cons_append, List.nil_append]
          rw [ssfix_cons, Bool.and_eq_true]
          refine ⟨by rw [if_neg (by simp [digit_not_bracket ha])], ?_⟩
          rw [ssfix_cons, Bool.and_eq_true]
          refine ⟨by rw [if_neg (by simp [digit_not_bracket hb])], ?_⟩
          rw [ssfix_cons, Bool.and_eq_true]
          refine ⟨by rw [if_neg (by decide)], ?_⟩
          refine ih (tt.dropWhile (· == ' '))
            (by
              have := (List.dropWhile_sublist (l := tt) (· == ' ')).length_le
              simp only [List.length_cons] at hlen
              omega)
            (ssfix_suffix ?_ h2)
          calc tt.dropWhile (· == ' ') <:+ tt := List.dropWhile_suffix _
            _ <:+ b :: ']' :: tt := by
              refine List.suffix_cons_iff.mpr (Or.inr ?_)
              exact List.suffix_cons_iff.mpr (Or.inr (List.suffix_refl _))
        case _ => simp at htr
      · rw [if_neg htr]
        rw [ssfix_cons, Bool.and_eq_true]
        refine ⟨?_, ih t (by omega) h2⟩
        by_cases hc : (a == '[' || a == '<') = true
        · rw [if_pos hc]
          rw [if_pos hc] at h1
          exact ssfix_cond_transfer (pre_next_c1 t).1 (pre_next_c1 t).2
            (by rw [if_pos trivial]; exact h1)
        · rw [if_neg hc]

theorem ssfix_c1 {mode : Mode} {cs : List Char} (h : ssfix mode cs = true) :
    ssfix mode (c1 cs) = true :=
  ssfix_c1_aux mode cs.length cs le_rfl h

theorem c2go_cons (k : Nat) (c : Char) (cs : List Char) :
    c2go k (c :: cs) =
      if c == '\n' then
        (if 2 ≤ k then c2go k cs else c :: c2go (k + 1) cs)
      else c :: c2go 0 cs := rfl

theorem pre_next_c2go0 : ∀ cs : List Char,
    preOf (c2go 0 cs) = preOf cs ∧ nextOf (c2go 0 cs) = nextOf cs := by
  intro cs
  induction cs with
  | nil => exact ⟨rfl, rfl⟩
  | cons c t ih =>
    by_cases hnl : (c == '\n') = true
    · have hc : charsetB c = false := by
        rw [beq_iff_eq] at hnl
        subst hnl
        rfl
      rw [c2go_cons, if_pos hnl, if_neg (by omega)]
      constructor
      · rw [(pre_next_cons_other hc _).1, (pre_next_cons_other hc _).1]
      · rw [(pre_next_cons_other hc _).2, (pre_next_cons_other hc _).2]
    · rw [c2go_cons, if_neg hnl]
      by_cases hch : charsetB c = true
      · constructor
        · rw [(pre_next_cons_charset hch _).1, (pre_next_cons_charset hch _).1, ih.1]
        · rw [(pre_next_cons_charset hch _).2, (pre_next_cons_charset hch _).2, ih.2]
      · have hch' : charsetB c = false := by simpa using hch
        constructor
        · rw [(pre_next_cons_other hch' _).1, (pre_next_cons_other hch' _).1]
        · rw [(pre_next_cons_other hch' _).2, (pre_next_cons_other hch' _).2]

theorem ssfix_c2go (mode : Mode) : ∀ (cs : List Char) (k : Nat),
    ssfix mode cs = true → ssfix mode (c2go k cs) = true := by
  intro cs
  induction cs with
  | nil => intro k _; rfl
  | cons c t ih =>
    intro k h
    rw [ssfix_cons, Bool.and_eq_true] at h
    obtain ⟨h1, h2⟩ := h
    rw [c2go_cons]
    by_cases hnl : (c == '\n') = true
    · rw [if_pos hnl]
      by_cases hk : 2 ≤ k
      · rw [if_pos hk]
        exact ih k h2
      · rw [if_neg hk]
        rw [ssfix_cons, Bool.and_eq_true]
        refine ⟨?_, ih (k + 1) h2⟩
        rw [if_neg (by rw [beq_iff_eq] at hnl; subst hnl; decide)]
    · rw [if_neg hnl]
      rw [ssfix_cons, Bool.and_eq_true]
      refine ⟨?_, ih 0 h2⟩
      by_cases hc : (c == '[' || c == '<') = true
      · rw [if_pos hc]
        rw [if_pos hc] at h1
        exact ssfix_cond_transfer (pre_next_c2go0 t).1 (pre_next_c2go0 t).2
          (by rw [if_pos trivial]; exact h1)
      · rw [if_neg hc]

theorem ssfix_c2 {mode : Mode} {cs : List Char} (h : ssfix mode cs = true) :
    ssfix mode (c2 cs) = true :=
  ssfix_c2go mode cs 0 h

/-! ### The cleanups leave no rewrite sites behind -/

theorem c2go_head (k : Nat) (cs : List Char) (hk : ¬ 2 ≤ k ∨ cs.head? ≠ some '\n') :
    (c2go k cs).head? = cs.head? := by
  cases cs with
  | nil => rfl
  | cons c t =>
    rw [c2go_cons]
    by_cases hnl : (c == '\n') = true
    · rcases hk with hk | hk
      · rw [if_pos hnl, if_neg hk]
        rfl
      · rw [beq_iff_eq] at hnl
        subst hnl
        simp at hk
    · rw [if_neg hnl]
      rfl

theorem c1_head_ne_space {cs : List Char} :
    ∀ c, ((cs.dropWhile (· == ' ')).head? = some c) → (c == ' ') = false :=
  fun c hc => head_dropWhile_not cs c hc

theorem hasC1_cons (c : Char) (t : List Char) :
    hasC1 (c :: t) = (c1occ (c :: t) || hasC1 t) := rfl

theorem c1_take_le3 : ∀ (n : Nat) (l : List Char), l.length ≤ n →
    ∀ k, k ≤ 3 → (c1 l).take k = l.take k := by
  intro n
  induction n with
  | zero =>
    intro l hlen k _
    have : l = [] := List.eq_nil_of_length_eq_zero (Nat.le_zero.mp hlen)
    subst this
    rfl
  | succ n ih =>
    intro l hlen k hk
    cases l with
    | nil => rfl
    | cons a t =>
      simp only [List.length_cons] at hlen
      rw [c1_cons]
      by_cases htr : c1Trig a t = true
      · rw [if_pos htr]
        unfold c1Trig at htr
        split at htr
        case _ b tt =>
          cases k with
          | zero => rfl
          | succ k =>
            rw [List.take_succ_cons, List.take_succ_cons]
            congr 1
            dsimp only [List.take, List.drop]
            rw [List.cons_append, List.cons_append, List.nil_append]
            cases k with
            | zero => rfl
            | succ k =>
              rw [List.take_succ_cons, List.take_succ_cons]
              congr 1
              cases k with
              | zero => rfl
              | succ k =>
                have hk0 : k = 0 := by omega
                subst hk0
                rfl
        case _ => simp at htr
      · rw [if_neg htr]
        cases k with
        | zero => rfl
        | succ k =>
          rw [List.take_succ_cons, List.take_succ_cons]
          congr 1
          exact ih t (by omega) k (by omega)

theorem take3_shape {l : List Char} {x y z : Char} (h : l.take 3 = [x, y, z]) :
    l = x :: y :: z :: l.drop 3 := by
  cases l with
  | nil => simp at h
  | cons a t =>
    cases t with
    | nil => simp at h
    | cons b u =>
      cases u with
      | nil => simp at h
      | cons c v =>
        simp only [List.take_succ_cons, List.take_zero] at h
        rw [List.cons.injEq, List.cons.injEq, List.cons.injEq] at h
        obtain ⟨rfl, rfl, rfl, -⟩ := h
        rfl

theorem hasC1_c1_aux : ∀ n (cs : List Char), cs.length ≤ n →
    hasC1 (c1 cs) = false := by
  intro n
  induction n with
  | zero =>
    intro cs hlen
    have : cs = [] := List.eq_nil_of_length_eq_zero (Nat.le_zero.mp hlen)
    subst this
    rfl
  | succ n ih =>
    intro cs hlen
    cases cs with
    | nil => rfl
    | cons a t =>
      simp only [List.length_cons] at hlen
      rw [c1_cons]
      by_cases htr : c1Trig a t = true
      · rw [if_pos htr]
        unfold c1Trig at htr
        split at htr
        case _ b tt =>
          simp only [List.length_cons] at hlen
          dsimp only [List.take, List.drop]
          rw [List.cons_append, List.cons_append, List.nil_append]
          have hXhead : ∀ c, (c1 (tt.dropWhile (· == ' '))).head? = some c →
              (c == ' ') = false := by
            intro c hc
            rw [c1_head] at hc
            exact head_dropWhile_not _ c hc
          rw [hasC1_cons, hasC1_cons, hasC1_cons]
          have hocc1 : c1occ (a :: b :: ']' ::
              c1 (tt.dropWhile (· == ' '))) = false := by
            unfold c1occ
            split
            · case _ heq =>
                rw [List.cons.injEq, List.cons.injEq, List.cons.injEq] at heq
                obtain ⟨-, -, -, h4⟩ := heq
                have : (c1 (tt.dropWhile (· == ' '))).head? = some ' ' := by
                  rw [h4]; rfl
                have := hXhead ' ' this
                simp at this
            · rfl
          have hocc2 : c1occ (b :: ']' :: c1 (tt.dropWhile (· == ' '))) = false := by
            unfold c1occ
            split
            · case _ heq =>
                rw [List.cons.injEq, List.cons.injEq] at heq
                obtain ⟨-, h2, -⟩ := heq
                rw [← h2]
                simp
            · rfl
          have hocc3 : c1occ (']' :: c1 (tt.dropWhile (· == ' '))) = false := by
            unfold c1occ
            split
            · case _ heq =>
                rw [List.cons.injEq] at heq
                rw [← heq.1]
                simp
            · rfl
          have hlen' : (tt.dropWhile (· == ' ')).length ≤ n := by
            have := (List.dropWhile_sublist (l := tt) (· == ' ')).length_le
            omega
          rw [hocc1, hocc2, hocc3, ih _ hlen']
          rfl
        case _ => simp at htr
      · rw [if_neg htr]
        rw [hasC1_cons]
        have hocc : c1occ (a :: c1 t) = false := by
          unfold c1occ
          split
          · case _ a' b' rest' heq =>
              rw [List.cons.injEq] at heq
              obtain ⟨rfl, h2⟩ := heq
              -- `c1 t` starts with `b' ] ␣`, hence so does `t`
              have h3 : t.take 3 = [b', ']', ' '] := by
                rw [← c1_take_le3 (n := t.length) t le_rfl 3 le_rfl, h2]
                rfl
              have h4 := take3_shape h3
              by_contra hcon
              rw [Bool.not_eq_false, Bool.and_eq_true] at hcon
              apply htr
              rw [h4]
              show (a.isDigit && b'.isDigit &&
                ((' ' :: List.drop 3 t).head? == some ' ')) = true
              rw [hcon.1, hcon.2]
              rfl
          · rfl
        rw [hocc, ih t (by omega)]
        rfl

theorem hasC1_c1 (cs : List Char) : hasC1 (c1 cs) = false :=
  hasC1_c1_aux cs.length cs le_rfl

theorem c1Trig_occ {a : Char} {t : List Char} (h : c1Trig a t = true) :
    c1occ (a :: t) = true := by
  unfold c1Trig at h
  split at h
  next b tt =>
    obtain ⟨h1, h2⟩ := Bool.and_eq_true _ _ |>.mp h
    obtain ⟨ha, hb⟩ := Bool.and_eq_true _ _ |>.mp h1
    cases tt with
    | nil => simp at h2
    | cons x tt' =>
      have hx : x = ' ' := by simpa using h2
      subst hx
      show (a.isDigit && b.isDigit) = true
      rw [ha, hb]
      rfl
  next => exact absurd h (by simp)

theorem c1_eq_self : ∀ cs : List Char, hasC1 cs = false → c1 cs = cs := by
  intro cs
  induction cs with
  | nil => intro _; rfl
  | cons a t ih =>
    intro h
    rw [hasC1_cons, Bool.or_eq_false_iff] at h
    have htr : c1Trig a t = false := by
      cases htr : c1Trig a t with
      | false => rfl
      | true =>
        have hocc := c1Trig_occ htr
        rw [h.1] at hocc
        exact absurd hocc (by decide)
    rw [c1_cons, htr]
    simp only [Bool.false_eq_true, if_false]
    rw [ih h.2]

theorem c1occ_eq_true {l : List Char} (h : c1occ l = true) :
    ∃ a b r, l = a :: b :: ']' :: ' ' :: r ∧ a.isDigit = true ∧ b.isDigit = true := by
  unfold c1occ at h
  split at h
  next a b r =>
    exact ⟨a, b, r, rfl, (Bool.and_eq_true _ _ |>.mp h).1, (Bool.and_eq_true _ _ |>.mp h).2⟩
  next => exact absurd h (by simp)

theorem c1occ_false_head {c : Char} (hc : c.isDigit = false) (t : List Char) :
    c1occ (c :: t) = false := by
  cases hcc : c1occ (c :: t) with
  | false => rfl
  | true =>
    obtain ⟨a, b, r, heq, ha, _⟩ := c1occ_eq_true hcc
    injection heq with h1 _
    rw [← h1, hc] at ha
    exact absurd ha (by decide)

theorem c2go_zero_three : ∀ (t : List Char) {b : Char} {r : List Char},
    (b == '\n') = false → c2go 0 t = b :: ']' :: ' ' :: r →
    ∃ r', t = b :: ']' :: ' ' :: r' := by
  intro t b r hb h
  cases t with
  | nil => exact absurd h (by simp [c2go])
  | cons t0 t1 =>
    rw [c2go_cons] at h
    by_cases h0 : (t0 == '\n') = true
    · rw [if_pos h0, if_neg (by omega)] at h
      injection h with h1 _
      rw [← h1, h0] at hb
      exact absurd hb (by decide)
    · rw [if_neg h0] at h
      injection h with h1 h2
      subst h1
      cases t1 with
      | nil => exact absurd h2 (by simp [c2go])
      | cons u0 u1 =>
        rw [c2go_cons] at h2
        by_cases hu : (u0 == '\n') = true
        · rw [if_pos hu, if_neg (by omega)] at h2
          injection h2 with h3 _
          rw [h3] at hu
          exact absurd hu (by decide)
        · rw [if_neg hu] at h2
          injection h2 with h3 h4
          subst h3
          cases u1 with
          | nil => exact absurd h4 (by simp [c2go])
          | cons v0 v1 =>
            rw [c2go_cons] at h4
            by_cases hv : (v0 == '\n') = true
            · rw [if_pos hv, if_neg (by omega)] at h4
              injection h4 with h5 _
              rw [h5] at hv
              exact absurd hv (by decide)
            · rw [if_neg hv] at h4
              injection h4 with h5 _
              subst h5
              exact ⟨v1, rfl⟩

theorem hasC1_c2go : ∀ (cs : List Char) (k : Nat),
    hasC1 cs = false → hasC1 (c2go k cs) = false := by
  intro cs
  induction cs with
  | nil => intro k _; rfl
  | cons c t ih =>
    intro k h
    rw [hasC1_cons, Bool.or_eq_false_iff] at h
    rw [c2go_cons]
    by_cases hc : (c == '\n') = true
    · rw [if_pos hc]
      by_cases hk : 2 ≤ k
      · rw [if_pos hk]; exact ih k h.2
      · rw [if_neg hk]
        rw [hasC1_cons, Bool.or_eq_false_iff]
        refine ⟨?_, ih (k + 1) h.2⟩
        have hcd : c.isDigit = false := by
          have := eq_of_beq hc
          subst this; decide
        exact c1occ_false_head hcd _
    · rw [if_neg hc]
      rw [hasC1_cons, Bool.or_eq_false_iff]
      refine ⟨?_, ih 0 h.2⟩
      cases hocc : c1occ (c :: c2go 0 t) with
      | false => rfl
      | true =>
        obtain ⟨a, b, r, heq, ha, hbd⟩ := c1occ_eq_true hocc
        injection heq with h1 h2
        subst h1
        have hbn : (b == '\n') = false := by
          cases hbn : b == '\n' with
          | false => rfl
          | true =>
            have := eq_of_beq hbn
            subst this
            exact absurd hbd (by decide)
        obtain ⟨r', hr⟩ := c2go_zero_three t hbn h2
        subst hr
        have hocc' : c1occ (c :: b :: ']' :: ' ' :: r') = true := by
          show (c.isDigit && b.isDigit) = true
          rw [ha, hbd]
          rfl
        rw [h.1] at hocc'
        exact absurd hocc' (by decide)

theorem hasTriple_cons (c : Char) (t : List Char) :
    hasTriple (c :: t) = (tripleOcc (c :: t) || hasTriple t) := rfl

theorem leadNl_cons (c : Char) (t : List Char) :
    leadNl (c :: t) = if (c == '\n') = true then leadNl t + 1 else 0 := by
  unfold leadNl
  rw [List.takeWhile_cons]
  by_cases hc : (c == '\n') = true
  · rw [if_pos hc, if_pos hc, List.length_cons]
  · rw [if_neg hc, if_neg hc]
    rfl

theorem tripleOcc_eq_true {l : List Char} (h : tripleOcc l = true) :
    ∃ r, l = '\n' :: '\n' :: '\n' :: r := by
  unfold tripleOcc at h
  split at h
  next r => exact ⟨r, rfl⟩
  next => exact absurd h (by simp)

theorem leadNl_two {l : List Char} (h : 2 ≤ leadNl l) :
    ∃ r, l = '\n' :: '\n' :: r := by
  cases l with
  | nil => simp [leadNl] at h
  | cons a t =>
    rw [leadNl_cons] at h
    by_cases ha : (a == '\n') = true
    · rw [if_pos ha] at h
      have ha' := eq_of_beq ha
      subst ha'
      cases t with
      | nil => simp [leadNl] at h
      | cons b u =>
        rw [leadNl_cons] at h
        by_cases hb : (b == '\n') = true
        · have := eq_of_beq hb
          subst this
          exact ⟨u, rfl⟩
        · rw [if_neg hb] at h
          omega
    · rw [if_neg ha] at h
      omega

theorem hasTriple_of_leadNl {l : List Char} (h : 3 ≤ leadNl l) :
    hasTriple l = true := by
  obtain ⟨r, hr⟩ := leadNl_two (Nat.le_trans (by omega) h)
  subst hr
  rw [leadNl_cons, if_pos (by decide), leadNl_cons, if_pos (by decide)] at h
  have h1 : 1 ≤ leadNl r := by omega
  cases r with
  | nil => simp [leadNl] at h1
  | cons x u =>
    rw [leadNl_cons] at h1
    by_cases hx : (x == '\n') = true
    · have := eq_of_beq hx
      subst this
      rfl
    · rw [if_neg hx] at h1
      omega

theorem c2go_clean : ∀ (cs : List Char) (k : Nat),
    leadNl (c2go k cs) ≤ 2 - k ∧ hasTriple (c2go k cs) = false := by
  intro cs
  induction cs with
  | nil => intro k; exact ⟨by simp [c2go, leadNl], rfl⟩
  | cons c t ih =>
    intro k
    rw [c2go_cons]
    by_cases hc : (c == '\n') = true
    · rw [if_pos hc]
      by_cases hk : 2 ≤ k
      · rw [if_pos hk]
        exact ih k
      · rw [if_neg hk]
        have hc' := eq_of_beq hc
        subst hc'
        constructor
        · rw [leadNl_cons, if_pos (by decide)]
          have := (ih (k + 1)).1
          omega
        · rw [hasTriple_cons, (ih (k + 1)).2, Bool.or_false]
          cases htr : tripleOcc ('\n' :: c2go (k + 1) t) with
          | false => rfl
          | true =>
            obtain ⟨r, hr⟩ := tripleOcc_eq_true htr
            injection hr with _ h2
            have h3 : 2 ≤ leadNl (c2go (k + 1) t) := by
              rw [h2, leadNl_cons, if_pos (by decide), leadNl_cons, if_pos (by decide)]
              omega
            have h4 := (ih (k + 1)).1
            omega
    · rw [if_neg hc]
      constructor
      · rw [leadNl_cons, if_neg hc]
        omega
      · rw [hasTriple_cons, (ih 0).2, Bool.or_false]
        cases htr : tripleOcc (c :: c2go 0 t) with
        | false => rfl
        | true =>
          obtain ⟨r, hr⟩ := tripleOcc_eq_true htr
          injection hr with h1 _
          rw [h1] at hc
          exact absurd hc (by simp)

theorem c2go_eq_self : ∀ (cs : List Char) (k : Nat),
    hasTriple cs = false → leadNl cs ≤ 2 - k → c2go k cs = cs := by
  intro cs
  induction cs with
  | nil => intro k _ _; rfl
  | cons c t ih =>
    intro k h hl
    rw [hasTriple_cons, Bool.or_eq_false_iff] at h
    rw [c2go_cons]
    by_cases hc : (c == '\n') = true
    · rw [if_pos hc]
      rw [leadNl_cons, if_pos hc] at hl
      by_cases hk : 2 ≤ k
      · exact absurd hl (by omega)
      · rw [if_neg hk]
        congr 1
        exact ih (k + 1) h.2 (by omega)
    · rw [if_neg hc]
      congr 1
      have hlt : leadNl t ≤ 2 := by
        by_contra hgt
        have := hasTriple_of_leadNl (l := t) (by omega)
        rw [h.2] at this
        exact absurd this (by simp)
      exact ih 0 h.2 (by omega)

theorem c2_c2 (cs : List Char) : c2 (c2 cs) = c2 cs :=
  c2go_eq_self (c2 cs) 0 ((c2go_clean cs 0).2)
    (Nat.le_trans (c2go_clean cs 0).1 (by omega))

theorem std_idem (mode : Mode) (s : List Char) :
    standardize_timestamps (standardize_timestamps s mode) mode
      = standardize_timestamps s mode := by
  have hfix : ssfix mode (standardize_timestamps s mode) = true :=
    ssfix_c2 (ssfix_c1 (ssfix_subScan mode s))
  show c2 (c1 (subScan mode (standardize_timestamps s mode)))
      = standardize_timestamps s mode
  rw [subScan_eq_self hfix]
  have h1 : hasC1 (standardize_timestamps s mode) = false :=
    hasC1_c2go (c1 (subScan mode s)) 0 (hasC1_c1 (subScan mode s))
  rw [c1_eq_self _ h1]
  exact c2_c2 (c1 (subScan mode s))

/-! ### Claims -/

/-- C1: the claim is refuted by the code's stale-`match` bug.  In the
multi-timestamp branch the loop reads the variables of the last
single-timestamp `match` object instead of the current line's tokens.  On the
claim's own boundary example `[00:00.000][00:05.000]lyric` no single-timestamp
line has matched yet, so the parse raises `UnboundLocalError`
(`Except.error`) instead of returning one event at 5000 ms; and when a
single-timestamp line does precede, every token of the multi line is paired
with that stale line's value rather than its own. -/
theorem C1_multi_stale_bug :
    parse_lrc_to_sylt ("[00:00.000][00:05.000]lyric".toList) = Except.error () ∧
    parse_lrc_to_sylt ("[10:00.000]a\n[00:00.000][00:05.000]lyric".toList) =
      Except.ok (['e', 'n', 'g'],
        [("a".toList, 600000), ("lyric".toList, 600000), ("lyric".toList, 600000)],
        []) := by
  exact ⟨by decide, by decide⟩

/-- C2: the claim that `parse` is total is refuted: a first line consisting of
two bracketed timestamps reaches the multi-timestamp branch before any
single-timestamp line has bound `match`, and the branch's read of `match[4]`
raises `UnboundLocalError` (`Except.error`) instead of degrading to an
omitted-line record. -/
theorem C2_parse_raises :
    parse_lrc_to_sylt ("[00:01][00:02]hi".toList) = Except.error () := by
  decide

/-- C4: out-of-range minutes or seconds are indeed normalized by carry
arithmetic — the token's total elapsed milliseconds are redecomposed, so the
rewritten token re-parses to groups denoting the same total time (modulo one
day) — but the redecomposition always extracts an hour group, so
`standardize("[75:90]x", keep)` is `"[01:16:30]x"`, not the claimed
`"[76:30]x"`. -/
theorem C4_carry_normalization (mode : Mode) (g : TsG) (hg : goodG g = true)
    (hm : mode = Mode.keep ∨ mode = Mode.forceXXX) :
    (∃ g', shape (fixTs mode g) = some g' ∧
        tsTotalMs g' = tsTotalMs g % 86400000) ∧
    standardize_timestamps ("[75:90]x".toList) Mode.keep =
      "[01:16:30]x".toList := by
  constructor
  · obtain ⟨g', h1, _, _, h4⟩ := fixTs_stable mode hg
    exact ⟨g', h1, h4 hm⟩
  · decide

theorem C4_witness :
    ∃ g', shape (fixTs Mode.keep ⟨none, ['7', '5'], ['9', '0'], none⟩) = some g' ∧
      tsTotalMs g' = tsTotalMs ⟨none, ['7', '5'], ['9', '0'], none⟩ % 86400000 :=
  (C4_carry_normalization Mode.keep ⟨none, ['7', '5'], ['9', '0'], none⟩
    (by decide) (Or.inl rfl)).1

/-- C4 counterexample: the claimed output `[76:30]x` is not what the
normalizer produces (it produces `[01:16:30]x`). -/
theorem C4_counterexample :
    ¬ standardize_timestamps ("[75:90]x".toList) Mode.keep =
        "[76:30]x".toList := by
  decide

/-- C6: `standardize` in force-three-digit-fraction mode is idempotent. -/
theorem C6_forceXXX_idempotent (s : List Char) :
    standardize_timestamps (standardize_timestamps s Mode.forceXXX) Mode.forceXXX
      = standardize_timestamps s Mode.forceXXX :=
  std_idem Mode.forceXXX s

/-- C9 counterexample: the bracket cleanup strips only runs of spaces after
two digits and `]`, not arbitrary whitespace — a tab survives — and it fires
on any `dd] ` occurrence, even where no timestamp token was matched, so text
outside matched tokens is changed. -/
theorem C9_counterexample :
    standardize_timestamps ("[00:01]\tx".toList) Mode.keep =
      "[00:01]\tx".toList ∧
    standardize_timestamps ("ab 12] cd".toList) Mode.keep =
      "ab 12]cd".toList := by
  exact ⟨by decide, by decide⟩

/-- C9 (amended): after all token substitutions the normalizer applies exactly
the two global cleanups, in this order: delete every run of spaces directly
after a digit-digit-`]` occurrence, then cap every newline run at two; the
result therefore contains no space run after a `dd]` and no three consecutive
newlines. -/
theorem C9_cleanup_result (s : List Char) (mode : Mode) :
    standardize_timestamps s mode = c2 (c1 (subScan mode s)) ∧
    hasC1 (standardize_timestamps s mode) = false ∧
    hasTriple (standardize_timestamps s mode) = false :=
  ⟨rfl, hasC1_c2go (c1 (subScan mode s)) 0 (hasC1_c1 (subScan mode s)),
    (c2go_clean (c1 (subScan mode s)) 0).2⟩

/-- C10: `standardize` in keep mode is idempotent: keep-mode output is a fixed
point of keep-mode normalization. -/
theorem C10_keep_idempotent (s : List Char) :
    standardize_timestamps (standardize_timestamps s Mode.keep) Mode.keep
      = standardize_timestamps s Mode.keep :=
  std_idem Mode.keep s

/-- C3: for a line matched by the single-timestamp pattern, the parser computes
`valueMs = hours*3600000 + minutes*60000 + seconds*1000 + fractionMs + offset`
(hours defaulting to 0, fraction right-padded to three digits, defaulting to
0), appends exactly one event with the stripped trailing text when
`0 ≤ valueMs` and appends nothing — in particular no omitted-line record —
when `valueMs` is negative; with `[offset:-1000]` and line `[00:02.000]hello`
the parse yields one event at 1000 ms. -/
theorem C3_single_line (offset : Int) (st : PState) (idx : Nat)
    (line : List Char) (g : TsG) (txt : List Char)
    (hm : singleMatch line = some (g, txt)) :
    tsValue g = (hoursN g : Int) * 3600000 + (natOfDigits g.m : Int) * 60000 +
      (natOfDigits g.s : Int) * 1000 + (msOfFrac g.f : Int) ∧
    step offset st idx line =
      Except.ok ⟨some g,
        st.events ++ (if 0 ≤ tsValue g + offset then
          [(pyStrip txt, tsValue g + offset)] else []),
        st.omitted⟩ ∧
    parse_lrc_to_sylt ("[offset:-1000]\n[00:02.000]hello".toList) =
      Except.ok (['e', 'n', 'g'], [("hello".toList, 1000)],
        ["1 [offset:-1000]".toList]) := by
  refine ⟨?_, ?_, by decide⟩
  · unfold tsValue tsTotalMs
    push_cast
    ring
  · unfold step
    rw [hm]
    dsimp only
    by_cases hv : 0 ≤ tsValue g + offset
    · rw [if_pos hv, if_pos hv]
    · rw [if_neg hv, if_neg hv]
      rw [List.append_nil]

theorem C3_witness :
    step (-1000) ⟨none, [], []⟩ 1 ("[00:02.000]hello".toList) =
      Except.ok ⟨some ⟨none, ['0', '0'], ['0', '2'], some ['0', '0', '0']⟩,
        [("hello".toList, 1000)], []⟩ := by
  have h := (C3_single_line (-1000) ⟨none, [], []⟩ 1 ("[00:02.000]hello".toList)
    ⟨none, ['0', '0'], ['0', '2'], some ['0', '0', '0']⟩ ("hello".toList)
    (by decide)).2.1
  rw [h]
  decide

/-- C5: the event list returned by parse is sorted by value ascending and the
sort is stable: it is a permutation of the events in source-line order, and
for every value the events carrying that value keep their source-relative
order; the file `[00:05]b`,`[00:01]a`,`[00:03]c` parses to a(1000), c(3000),
b(5000). -/
theorem C5_sorted_stable (lyrics lang : List Char)
    (evs : List (List Char × Int)) (om : List (List Char)) (st : PState)
    (hr : parseRaw lyrics = Except.ok st)
    (hp : parse_lrc_to_sylt lyrics = Except.ok (lang, evs, om)) :
    evs.Sorted byValue ∧ evs.Perm st.events ∧
    (∀ v : Int, evs.filter (fun e => e.2 == v) =
      st.events.filter (fun e => e.2 == v)) ∧
    parse_lrc_to_sylt ("[00:05]b\n[00:01]a\n[00:03]c".toList) =
      Except.ok (['e', 'n', 'g'],
        [("a".toList, 1000), ("c".toList, 3000), ("b".toList, 5000)], []) := by
  have hevs : evs = List.insertionSort byValue st.events := by
    unfold parse_lrc_to_sylt at hp
    rw [hr] at hp
    dsimp only at hp
    injection hp with hp
    injection hp with h1 hp
    injection hp with h2 h3
    exact h2.symm
  subst hevs
  refine ⟨List.sorted_insertionSort byValue st.events,
    List.perm_insertionSort byValue st.events, ?_, by decide⟩
  intro v
  have hmem : ∀ e ∈ st.events.filter (fun e => e.2 == v), e.2 = v := by
    intro e he
    exact eq_of_beq (List.mem_filter.mp he).2
  have hpw : (st.events.filter (fun e => e.2 == v)).Pairwise byValue := by
    apply List.pairwise_of_forall_mem_list
    intro a ha b hb
    show a.2 ≤ b.2
    rw [hmem a ha, hmem b hb]
  have h1 := List.sublist_insertionSort hpw (List.filter_sublist st.events)
  have h2 := h1.filter (fun e => e.2 == v)
  have h3 : (st.events.filter (fun e => e.2 == v)).filter (fun e => e.2 == v) =
      st.events.filter (fun e => e.2 == v) :=
    List.filter_eq_self.mpr (fun a ha => by rw [hmem a ha]; exact beq_self_eq_true v)
  rw [h3] at h2
  have hlen : ((List.insertionSort byValue st.events).filter
        (fun e => e.2 == v)).length =
      (st.events.filter (fun e => e.2 == v)).length :=
    ((List.perm_insertionSort byValue st.events).filter _).length_eq
  exact (h2.eq_of_length hlen.symm).symm

theorem C5_witness :
    List.Sorted byValue
      [("a".toList, 1000), ("c".toList, 3000), ("b".toList, 5000)] ∧
    List.Perm
      ([("a".toList, 1000), ("c".toList, 3000), ("b".toList, 5000)] :
        List (List Char × Int))
      [("b".toList, 5000), ("a".toList, 1000), ("c".toList, 3000)] := by
  have h := C5_sorted_stable ("[00:05]b\n[00:01]a\n[00:03]c".toList)
    ['e', 'n', 'g']
    [("a".toList, 1000), ("c".toList, 3000), ("b".toList, 5000)] []
    ⟨some ⟨none, ['0', '0'], ['0', '3'], none⟩,
      [("b".toList, 5000), ("a".toList, 1000), ("c".toList, 3000)], []⟩
    (by decide) (by decide)
  exact ⟨h.1, h.2.1⟩

theorem droppedAux_cons (offset : Int) (stale : Option TsG) (line : List Char)
    (rest : List (List Char)) :
    droppedAux offset stale (line :: rest) =
      match singleMatch line with
      | some (g, _) =>
        (if 0 ≤ tsValue g + offset then 0 else 1) + droppedAux offset (some g) rest
      | none =>
        if multiCheck line then
          match stale with
          | none => 0
          | some m =>
            (if 0 < tsValue m + offset then 0 else 1) + droppedAux offset stale rest
        else droppedAux offset stale rest := rfl

theorem countTs_pos {line : List Char} (h : multiCheck line = true) :
    1 ≤ countTs line := by
  unfold multiCheck at h
  cases hb : bracketTsLen line with
  | none =>
    rw [hb] at h
    replace h : false = true := h
    exact absurd h (by decide)
  | some n =>
    cases line with
    | nil => exact absurd hb (by simp [bracketTsLen])
    | cons c t =>
      rw [countTs_cons, hb]
      show 1 ≤ 1 + countTs ((c :: t).drop n)
      omega

theorem step_account : ∀ (ps : List (Nat × List Char)) (offset : Int)
    (st st' : PState),
    ps.foldlM (fun s p => step offset s p.1 p.2) st = Except.ok st' →
    ps.length + st.events.length + st.omitted.length ≤
      st'.events.length + st'.omitted.length +
        droppedAux offset st.stale (ps.map Prod.snd) := by
  intro ps
  induction ps with
  | nil =>
    intro offset st st' h
    replace h : Except.ok st = Except.ok st' := h
    injection h with h
    subst h
    simp [droppedAux]
  | cons p rest ih =>
    intro offset st st' h
    obtain ⟨n, l⟩ := p
    replace h : (step offset st n l >>= fun s =>
        rest.foldlM (fun s p => step offset s p.1 p.2) s) = Except.ok st' := h
    cases hstep : step offset st n l with
    | error e =>
      rw [hstep] at h
      exact Except.noConfusion h
    | ok st1 =>
      rw [hstep] at h
      replace h : rest.foldlM (fun s p => step offset s p.1 p.2) st1 =
          Except.ok st' := h
      have hrec := ih offset st1 st' h
      simp only [List.map_cons, List.length_cons]
      cases hsm : singleMatch l with
      | some q =>
        obtain ⟨g, txt⟩ := q
        unfold step at hstep
        rw [hsm] at hstep
        replace hstep : Except.ok { st with stale := some g, events :=
            (if 0 ≤ tsValue g + offset then
              st.events ++ [(pyStrip txt, tsValue g + offset)]
            else st.events) } = Except.ok st1 := hstep
        injection hstep with hstep
        subst hstep
        have hd : droppedAux offset st.stale (l :: rest.map Prod.snd) =
            (if 0 ≤ tsValue g + offset then 0 else 1) +
              droppedAux offset (some g) (rest.map Prod.snd) := by
          rw [droppedAux_cons, hsm]
        rw [hd]
        dsimp only at hrec
        by_cases hv : 0 ≤ tsValue g + offset
        · rw [if_pos hv]
          rw [if_pos hv] at hrec
          simp only [List.length_append, List.length_singleton] at hrec
          omega
        · rw [if_neg hv]
          rw [if_neg hv] at hrec
          omega
      | none =>
        unfold step at hstep
        rw [hsm] at hstep
        by_cases hmc : multiCheck l
        · rw [if_pos hmc] at hstep
          cases hstale : st.stale with
          | none =>
            rw [hstale] at hstep
            replace hstep : (Except.error () : Except Unit PState) =
                Except.ok st1 := hstep
            exact Except.noConfusion hstep
          | some m =>
            rw [hstale] at hstep
            replace hstep : Except.ok (⟨some m, st.events ++
                (if 0 < tsValue m + offset then
                    List.replicate (countTs l) (multiText l, tsValue m + offset)
                  else []), st.omitted⟩ : PState) = Except.ok st1 := hstep
            injection hstep with hstep
            subst hstep
            have hd : droppedAux offset (some m) (l :: rest.map Prod.snd) =
                (if 0 < tsValue m + offset then 0 else 1) +
                  droppedAux offset (some m) (rest.map Prod.snd) := by
              rw [droppedAux_cons, hsm]
              dsimp only
              rw [if_pos hmc]
            rw [hd]
            dsimp only at hrec
            have hc := countTs_pos hmc
            by_cases hv : 0 < tsValue m + offset
            · rw [if_pos hv]
              rw [if_pos hv] at hrec
              simp only [List.length_append, List.length_replicate] at hrec
              omega
            · rw [if_neg hv]
              rw [if_neg hv] at hrec
              simp only [List.append_nil] at hrec
              omega
        · rw [if_neg hmc] at hstep
          replace hstep : Except.ok { st with omitted :=
              st.omitted ++ [natChars (n + 1) ++ ' ' :: l] } =
              Except.ok st1 := hstep
          injection hstep with hstep
          subst hstep
          have hd : droppedAux offset st.stale (l :: rest.map Prod.snd) =
              droppedAux offset st.stale (rest.map Prod.snd) := by
            rw [droppedAux_cons, hsm]
            dsimp only
            rw [if_neg hmc]
          rw [hd]
          dsimp only at hrec
          simp only [List.length_append, List.length_singleton] at hrec
          omega

/-- C8 counterexample: events plus omitted lines can undercount the non-header
lines, because single-timestamp lines whose offset-adjusted value is negative
are passed over silently: with `[offset:-1000]` and two zero-second lines the
parse returns no events and one omitted line against two non-header lines. -/
theorem C8_counterexample :
    parse_lrc_to_sylt ("[offset:-1000]\n[00:00]x\n[00:00]y".toList) =
      Except.ok (['e', 'n', 'g'], [], ["1 [offset:-1000]".toList]) ∧
    nonHeaderCount ("[offset:-1000]\n[00:00]x\n[00:00]y".toList) = 2 := by
  exact ⟨by decide, by decide⟩

/-- C8 (amended): line accounting holds once the silently dropped lines are
counted — on a successful parse, events plus omitted lines plus the lines the
loop passes over silently (negative-valued single-timestamp lines and
non-positive multi-timestamp lines) is at least the number of non-header
lines. -/
theorem C8_line_accounting (lyrics lang : List Char)
    (evs : List (List Char × Int)) (om : List (List Char))
    (hp : parse_lrc_to_sylt lyrics = Except.ok (lang, evs, om)) :
    nonHeaderCount lyrics ≤ evs.length + om.length + droppedCount lyrics := by
  cases hpr : parseRaw lyrics with
  | error e =>
    unfold parse_lrc_to_sylt at hp
    rw [hpr] at hp
    exact Except.noConfusion hp
  | ok st =>
    unfold parse_lrc_to_sylt at hp
    rw [hpr] at hp
    dsimp only at hp
    injection hp with hp
    injection hp with h1 hp
    injection hp with h2 h3
    replace hpr : (pySplitlines lyrics).enum.foldlM
        (fun s p => step ((findOffset lyrics).getD 0) s p.1 p.2)
        ⟨none, [], []⟩ = Except.ok st := hpr
    have hacc := step_account (pySplitlines lyrics).enum
      ((findOffset lyrics).getD 0) ⟨none, [], []⟩ st hpr
    rw [List.enum_map_snd, List.enum_length] at hacc
    dsimp only at hacc
    have hnh : nonHeaderCount lyrics ≤ (pySplitlines lyrics).length :=
      List.length_filter_le _ _
    have hlen : evs.length = st.events.length := by
      rw [← h2]
      exact List.length_insertionSort byValue st.events
    have hom : om.length = st.omitted.length := by rw [← h3]
    have hdc : droppedCount lyrics =
        droppedAux ((findOffset lyrics).getD 0) none (pySplitlines lyrics) := rfl
    simp only [List.length_nil] at hacc
    omega

theorem C8_witness :
    nonHeaderCount ("[offset:-1000]\n[00:00]x\n[00:00]y".toList) ≤
      List.length ([] : List (List Char × Int)) +
        List.length ["1 [offset:-1000]".toList] +
        droppedCount ("[offset:-1000]\n[00:00]x\n[00:00]y".toList) :=
  C8_line_accounting ("[offset:-1000]\n[00:00]x\n[00:00]y".toList)
    ['e', 'n', 'g'] [] ["1 [offset:-1000]".toList] (by decide)

theorem splitGoF_cons (fu : Nat) (c : Char) (t cur : List Char) :
    splitGoF (fu + 1) (c :: t) cur =
      if c == '\r' && t.head? == some '\n' then
        cur.reverse :: (if t.tail.isEmpty then [] else splitGoF fu t.tail [])
      else if isLB c then
        cur.reverse :: (if t.isEmpty then [] else splitGoF fu t [])
      else splitGoF fu t (c :: cur) := rfl

theorem splitGoF_congr : ∀ (fu : Nat) (cs : List Char) (fv : Nat) (cur : List Char),
    cs.length ≤ fu → cs.length ≤ fv → splitGoF fu cs cur = splitGoF fv cs cur := by
  intro fu
  induction fu with
  | zero =>
    intro cs fv cur h1 _
    have : cs = [] := List.eq_nil_of_length_eq_zero (Nat.le_zero.mp h1)
    subst this
    cases fv <;> rfl
  | succ fu ih =>
    intro cs fv cur h1 h2
    cases cs with
    | nil => cases fv <;> rfl
    | cons c t =>
      simp only [List.length_cons] at h1 h2
      cases fv with
      | zero => omega
      | succ fv =>
        rw [splitGoF_cons, splitGoF_cons]
        by_cases hc : (c == '\r' && t.head? == some '\n') = true
        · rw [if_pos hc, if_pos hc]
          by_cases hte : t.tail.isEmpty = true
          · rw [if_pos hte, if_pos hte]
          · rw [if_neg hte, if_neg hte]
            have htl : t.tail.length ≤ t.length := by
              cases t with
              | nil => simp
              | cons x u => simp
            rw [ih t.tail fv [] (by omega) (by omega)]
        · rw [if_neg hc, if_neg hc]
          by_cases hlb : isLB c = true
          · rw [if_pos hlb, if_pos hlb]
            by_cases hte : t.isEmpty = true
            · rw [if_pos hte, if_pos hte]
            · rw [if_neg hte, if_neg hte]
              rw [ih t fv [] (by omega) (by omega)]
          · rw [if_neg hlb, if_neg hlb]
            exact ih t fv (c :: cur) (by omega) (by omega)

theorem splitGo_nolb : ∀ (l cur : List Char) (fu : Nat),
    l.all (fun c => !isLB c) = true → l.length ≤ fu →
    splitGoF fu l cur = [cur.reverse ++ l] := by
  intro l
  induction l with
  | nil =>
    intro cur fu _ _
    cases fu <;> simp [splitGoF]
  | cons c t ih =>
    intro cur fu hall hlen
    rw [List.all_cons, Bool.and_eq_true] at hall
    have hc : isLB c = false := by
      cases hcb : isLB c
      · rfl
      · rw [hcb] at hall
        exact absurd hall.1 (by decide)
    simp only [List.length_cons] at hlen
    cases fu with
    | zero => omega
    | succ fu =>
      rw [splitGoF_cons]
      have hcr : (c == '\r') = false := by
        cases hh : c == '\r'
        · rfl
        · have := eq_of_beq hh
          subst this
          exact absurd hc (by decide)
      rw [hcr]
      simp only [Bool.false_and, Bool.false_eq_true, if_false]
      rw [hc]
      simp only [Bool.false_eq_true, if_false]
      rw [ih (c :: cur) fu hall.2 (by omega)]
      simp

theorem splitGo_cut : ∀ (l t cur : List Char) (fu : Nat),
    l.all (fun c => !isLB c) = true → t ≠ [] →
    (l ++ '\n' :: t).length ≤ fu →
    splitGoF fu (l ++ '\n' :: t) cur =
      (cur.reverse ++ l) :: splitGoF t.length t [] := by
  intro l
  induction l with
  | nil =>
    intro t cur fu _ ht hlen
    simp only [List.nil_append, List.length_cons] at hlen ⊢
    cases fu with
    | zero => omega
    | succ fu =>
      rw [splitGoF_cons]
      have h1 : (('\n' == '\r') && (t.head? == some '\n')) = false := by
        rw [show ('\n' == '\r') = false from rfl]
        rw [Bool.false_and]
      rw [h1]
      simp only [Bool.false_eq_true, if_false]
      rw [show isLB '\n' = true from rfl]
      simp only [if_true]
      have h2 : t.isEmpty = false := by
        cases t with
        | nil => exact absurd rfl ht
        | cons x u => rfl
      rw [h2]
      simp only [Bool.false_eq_true, if_false, List.append_nil]
      rw [splitGoF_congr fu t t.length [] (by omega) le_rfl]
  | cons c l ih =>
    intro t cur fu hall ht hlen
    rw [List.all_cons, Bool.and_eq_true] at hall
    have hc : isLB c = false := by
      cases hcb : isLB c
      · rfl
      · rw [hcb] at hall
        exact absurd hall.1 (by decide)
    simp only [List.cons_append, List.length_cons] at hlen ⊢
    cases fu with
    | zero => omega
    | succ fu =>
      rw [splitGoF_cons]
      have hcr : (c == '\r') = false := by
        cases hh : c == '\r'
        · rfl
        · have := eq_of_beq hh
          subst this
          exact absurd hc (by decide)
      rw [hcr]
      simp only [Bool.false_and, Bool.false_eq_true, if_false]
      rw [hc]
      simp only [Bool.false_eq_true, if_false]
      have hlen2 : (l ++ '\n' :: t).length ≤ fu := by
        simp only [List.length_append, List.length_cons] at hlen ⊢
        omega
      rw [ih t (c :: cur) fu hall.2 ht hlen2]
      simp

theorem intercalate_two (s x y : List Char) (zs : List (List Char)) :
    List.intercalate s (x :: y :: zs) = x ++ s ++ List.intercalate s (y :: zs) := by
  simp [List.intercalate, List.intersperse]

theorem intercalate_one (s x : List Char) : List.intercalate s [x] = x := by
  simp [List.intercalate, List.intersperse]

theorem pySplitlines_intercalate : ∀ (lines : List (List Char)),
    lines ≠ [] → (∀ l ∈ lines, l ≠ [] ∧ l.all (fun c => !isLB c) = true) →
    pySplitlines (List.intercalate ['\n'] lines) = lines := by
  intro lines
  induction lines with
  | nil => intro h _; exact absurd rfl h
  | cons l rest ih =>
    intro _ hall
    cases rest with
    | nil =>
      rw [intercalate_one]
      obtain ⟨hne, hnolb⟩ := hall l (List.mem_cons_self l [])
      unfold pySplitlines
      have h2 : l.isEmpty = false := by
        cases l with
        | nil => exact absurd rfl hne
        | cons x u => rfl
      rw [h2]
      simp only [Bool.false_eq_true, if_false]
      rw [splitGo_nolb l [] l.length hnolb le_rfl]
      simp
    | cons l2 rest2 =>
      rw [intercalate_two]
      obtain ⟨hne, hnolb⟩ := hall l (List.mem_cons_self l _)
      have hT : List.intercalate ['\n'] (l2 :: rest2) ≠ [] := by
        cases rest2 with
        | nil =>
          rw [intercalate_one]
          exact (hall l2 (by simp)).1
        | cons l3 r3 =>
          rw [intercalate_two]
          intro hcon
          simp at hcon
      have hassoc : l ++ ['\n'] ++ List.intercalate ['\n'] (l2 :: rest2) =
          l ++ '\n' :: List.intercalate ['\n'] (l2 :: rest2) := by simp
      rw [hassoc]
      unfold pySplitlines
      have hne2 : (l ++ '\n' :: List.intercalate ['\n'] (l2 :: rest2)).isEmpty
          = false := by
        cases l <;> rfl
      rw [hne2]
      simp only [Bool.false_eq_true, if_false]
      rw [splitGo_cut l _ [] _ hnolb hT le_rfl]
      simp only [List.reverse_nil, List.nil_append]
      congr 1
      have hrec := ih (List.cons_ne_nil l2 rest2)
        (fun x hx => hall x (List.mem_cons_of_mem l hx))
      unfold pySplitlines at hrec
      have hTe : (List.intercalate ['\n'] (l2 :: rest2)).isEmpty = false := by
        cases hTT : List.intercalate ['\n'] (l2 :: rest2) with
        | nil => exact absurd hTT hT
        | cons x u => rfl
      rw [hTe] at hrec
      simp only [Bool.false_eq_true, if_false] at hrec
      exact hrec

theorem formatTs_eq (ms : Int) :
    formatTs ms =
      (if 0 < ((ms / 1000) % 86400).toNat / 3600 then
        '[' :: (pad 2 (((ms / 1000) % 86400).toNat / 3600) ++ ':' ::
          (pad 2 (((ms / 1000) % 86400).toNat % 3600 / 60) ++ ':' ::
            (pad 2 (((ms / 1000) % 86400).toNat % 60) ++ '.' ::
              (pad 3 ((ms % 1000).toNat) ++ [']']))))
      else
        '[' :: (pad 2 (((ms / 1000) % 86400).toNat % 3600 / 60) ++ ':' ::
          (pad 2 (((ms / 1000) % 86400).toNat % 60) ++ '.' ::
            (pad 3 ((ms % 1000).toNat) ++ [']'])))) := rfl

theorem charsetB_digit {c : Char} (h : c.isDigit = true) : charsetB c = true := by
  unfold charsetB
  rw [h]
  rfl

theorem singleMatch_cons_bracket (rest : List Char) :
    singleMatch ('[' :: rest) =
      match shape (rest.takeWhile charsetB) with
      | some g =>
        match rest.drop (rest.takeWhile charsetB).length with
        | ']' :: rest0 =>
          if containsAngleTs (rest0.dropWhile (· == ' ')) then none
          else if !startsBracketTs (rest0.dropWhile (· == ' ')) then
            some (g, rest0.dropWhile (· == ' '))
          else if rest0.head? == some ' ' then
            some (g, ' ' :: rest0.dropWhile (· == ' '))
          else none
        | _ => none
      | none => none := rfl

theorem singleMatch_token {body t : List Char} {g : TsG}
    (hall : ∀ c ∈ body, charsetB c = true)
    (hshape : shape body = some g)
    (ht : t.dropWhile (· == ' ') = t)
    (ha : containsAngleTs t = false) (hb : startsBracketTs t = false) :
    singleMatch ('[' :: (body ++ ']' :: t)) = some (g, t) := by
  have hpre : List.takeWhile charsetB (body ++ ']' :: t) = body := by
    rw [takeWhile_append_all hall]
    simp [List.takeWhile_cons, charsetB_rsq]
  rw [singleMatch_cons_bracket, hpre, hshape]
  dsimp only
  rw [List.drop_left]
  show (if containsAngleTs (t.dropWhile (· == ' ')) = true then none
    else if (!startsBracketTs (t.dropWhile (· == ' '))) = true then
      some (g, t.dropWhile (· == ' '))
    else if (t.head? == some ' ') = true then
      some (g, ' ' :: t.dropWhile (· == ' '))
    else none) = some (g, t)
  rw [ht, ha, hb]
  rfl

theorem charset_body_hourless {M S k : Nat} (hM : M < 100) (hS : S < 100)
    (hm : k < 1000) :
    ∀ c ∈ pad 2 M ++ ':' :: (pad 2 S ++ '.' :: pad 3 k), charsetB c = true := by
  intro c hc
  simp only [List.mem_append, List.mem_cons] at hc
  rcases hc with hc | rfl | hc | rfl | hc
  · exact charsetB_digit (pad_two_digits hM c hc)
  · rfl
  · exact charsetB_digit (pad_two_digits hS c hc)
  · rfl
  · exact charsetB_digit (pad_three_digits hm c hc)

theorem charset_body_hours {H M S k : Nat} (hH : H < 100) (hM : M < 100)
    (hS : S < 100) (hm : k < 1000) :
    ∀ c ∈ pad 2 H ++ ':' :: (pad 2 M ++ ':' :: (pad 2 S ++ '.' :: pad 3 k)),
      charsetB c = true := by
  intro c hc
  simp only [List.mem_append, List.mem_cons] at hc
  rcases hc with hc | rfl | hc | rfl | hc | rfl | hc
  · exact charsetB_digit (pad_two_digits hH c hc)
  · rfl
  · exact charsetB_digit (pad_two_digits hM c hc)
  · rfl
  · exact charsetB_digit (pad_two_digits hS c hc)
  · rfl
  · exact charsetB_digit (pad_three_digits hm c hc)

theorem tsTotal_fmt_hours {H M S k : Nat} (hH : H < 100) (hM : M < 100)
    (hS : S < 100) (hm : k < 1000) :
    tsTotalMs ⟨some (pad 2 H), pad 2 M, pad 2 S, some (pad 3 k)⟩ =
      3600000 * H + 60000 * M + 1000 * S + k := by
  unfold tsTotalMs hoursN msOfFrac
  dsimp only
  rw [natOfDigits_pad_two hH, natOfDigits_pad_two hM, natOfDigits_pad_two hS]
  rw [ljustZ_eq_self (pad_three_length k hm), natOfDigits_pad_three hm]

theorem tsTotal_fmt_hourless {M S k : Nat} (hM : M < 100) (hS : S < 100)
    (hm : k < 1000) :
    tsTotalMs ⟨none, pad 2 M, pad 2 S, some (pad 3 k)⟩ =
      60000 * M + 1000 * S + k := by
  unfold tsTotalMs hoursN msOfFrac
  dsimp only
  rw [natOfDigits_pad_two hM, natOfDigits_pad_two hS]
  rw [ljustZ_eq_self (pad_three_length k hm), natOfDigits_pad_three hm]
  omega

set_option maxHeartbeats 2000000 in
theorem singleMatch_format {ms : Int} (h0 : 0 ≤ ms) (h1 : ms < 86400000)
    {t : List Char} (ht : t.dropWhile (· == ' ') = t)
    (ha : containsAngleTs t = false) (hb : startsBracketTs t = false) :
    ∃ g, singleMatch (formatTs ms ++ t) = some (g, t) ∧ tsValue g = ms := by
  obtain ⟨N, rfl⟩ : ∃ N : Nat, ms = (N : Int) :=
    ⟨ms.toNat, (Int.toNat_of_nonneg h0).symm⟩
  have hsec : (((N : Int) / 1000) % 86400).toNat = N / 1000 := by omega
  have hmil : (((N : Int)) % 1000).toNat = N % 1000 := by omega
  rw [formatTs_eq, hsec, hmil]
  have hNlt : N < 86400000 := by omega
  by_cases hH : 0 < N / 1000 / 3600
  · rw [if_pos hH]
    refine ⟨⟨some (pad 2 (N / 1000 / 3600)), pad 2 (N / 1000 % 3600 / 60),
      pad 2 (N / 1000 % 60), some (pad 3 (N % 1000))⟩, ?_, ?_⟩
    · have hform : ('[' :: (pad 2 (N / 1000 / 3600) ++ ':' ::
          (pad 2 (N / 1000 % 3600 / 60) ++ ':' ::
            (pad 2 (N / 1000 % 60) ++ '.' :: (pad 3 (N % 1000) ++ [']']))))) ++ t =
          '[' :: ((pad 2 (N / 1000 / 3600) ++ ':' ::
            (pad 2 (N / 1000 % 3600 / 60) ++ ':' ::
              (pad 2 (N / 1000 % 60) ++ '.' :: pad 3 (N % 1000)))) ++ ']' :: t) := by
        simp only [List.cons_append, List.append_assoc, List.singleton_append,
          List.nil_append]
      rw [hform]
      apply singleMatch_token _ _ ht ha hb
      · exact charset_body_hours (H := N / 1000 / 3600) (M := N / 1000 % 3600 / 60)
          (S := N / 1000 % 60) (k := N % 1000)
          (by omega) (by omega) (by omega) (by omega)
      · have dh := pad_two_digits (x := N / 1000 / 3600) (by omega)
        have d1 := pad_two_digits (x := N / 1000 % 3600 / 60) (by omega)
        have d2 := pad_two_digits (x := N / 1000 % 60) (by omega)
        have lh : 1 ≤ (pad 2 (N / 1000 / 3600)).length ∧
            (pad 2 (N / 1000 / 3600)).length ≤ 2 := by
          rw [pad_two_length _ (by omega)]
          omega
        have l1 : 1 ≤ (pad 2 (N / 1000 % 3600 / 60)).length ∧
            (pad 2 (N / 1000 % 3600 / 60)).length ≤ 3 := by
          rw [pad_two_length _ (by omega)]
          omega
        have l2 : 1 ≤ (pad 2 (N / 1000 % 60)).length ∧
            (pad 2 (N / 1000 % 60)).length ≤ 2 := by
          rw [pad_two_length _ (by omega)]
          omega
        have df : ∀ fr, (some (pad 3 (N % 1000)) : Option (List Char)) = some fr →
            (∀ c ∈ fr, c.isDigit = true) ∧ 2 ≤ fr.length ∧ fr.length ≤ 3 := by
          intro fr hfr
          injection hfr with hfr
          subst hfr
          refine ⟨pad_three_digits (by omega), ?_⟩
          rw [pad_three_length _ (by omega)]
          omega
        exact shape_hours dh lh d1 l1 d2 l2 df
    · unfold tsValue
      rw [tsTotal_fmt_hours (H := N / 1000 / 3600) (M := N / 1000 % 3600 / 60)
        (S := N / 1000 % 60) (k := N % 1000)
        (by omega) (by omega) (by omega) (by omega)]
      omega
  · rw [if_neg hH]
    refine ⟨⟨none, pad 2 (N / 1000 % 3600 / 60), pad 2 (N / 1000 % 60),
      some (pad 3 (N % 1000))⟩, ?_, ?_⟩
    · have hform : ('[' :: (pad 2 (N / 1000 % 3600 / 60) ++ ':' ::
          (pad 2 (N / 1000 % 60) ++ '.' :: (pad 3 (N % 1000) ++ [']'])))) ++ t =
          '[' :: ((pad 2 (N / 1000 % 3600 / 60) ++ ':' ::
            (pad 2 (N / 1000 % 60) ++ '.' :: pad 3 (N % 1000))) ++ ']' :: t) := by
        simp only [List.cons_append, List.append_assoc, List.singleton_append,
          List.nil_append]
      rw [hform]
      apply singleMatch_token _ _ ht ha hb
      · exact charset_body_hourless (M := N / 1000 % 3600 / 60)
          (S := N / 1000 % 60) (k := N % 1000) (by omega) (by omega) (by omega)
      · have d1 := pad_two_digits (x := N / 1000 % 3600 / 60) (by omega)
        have d2 := pad_two_digits (x := N / 1000 % 60) (by omega)
        have l1 : 1 ≤ (pad 2 (N / 1000 % 3600 / 60)).length ∧
            (pad 2 (N / 1000 % 3600 / 60)).length ≤ 3 := by
          rw [pad_two_length _ (by omega)]
          omega
        have l2 : 1 ≤ (pad 2 (N / 1000 % 60)).length ∧
            (pad 2 (N / 1000 % 60)).length ≤ 2 := by
          rw [pad_two_length _ (by omega)]
          omega
        have df : ∀ fr, (some (pad 3 (N % 1000)) : Option (List Char)) = some fr →
            (∀ c ∈ fr, c.isDigit = true) ∧ 2 ≤ fr.length ∧ fr.length ≤ 3 := by
          intro fr hfr
          injection hfr with hfr
          subst hfr
          refine ⟨pad_three_digits (by omega), ?_⟩
          rw [pad_three_length _ (by omega)]
          omega
        exact shape_hourless d1 l1 d2 l2 df
    · unfold tsValue
      rw [tsTotal_fmt_hourless (M := N / 1000 % 3600 / 60)
        (S := N / 1000 % 60) (k := N % 1000) (by omega) (by omega) (by omega)]
      omega

theorem digit_toLower_not_l {d : Nat} (h : d < 10) :
    ((Nat.digitChar d).toLower == 'l') = false := by
  interval_cases d <;> decide

theorem digit_toLower_not_o {d : Nat} (h : d < 10) :
    ((Nat.digitChar d).toLower == 'o') = false := by
  interval_cases d <;> decide

theorem langLine_cons_other {a : Char} (ha : (a.toLower == 'l') = false)
    (rest : List Char) : langLine ('[' :: a :: rest) = none := by
  unfold langLine
  split
  next a2 b t heq =>
    injection heq with h1 h2
    injection h2 with h2 h3
    subst h2
    rw [ha]
    simp
  next => rfl

theorem offsetLine_cons_other {a : Char} (ha : (a.toLower == 'o') = false)
    (rest : List Char) : offsetLine ('[' :: a :: rest) = none := by
  unfold offsetLine
  split
  next a2 b c d e f t heq =>
    injection heq with h1 h2
    injection h2 with h2 h3
    subst h2
    rw [if_neg ?_]
    intro hcon
    injection hcon with hc _
    exact absurd hc (ne_of_beq_false ha)
  next => rfl

theorem formatTs_head (ms : Int) :
    ∃ d rest, d < 10 ∧ formatTs ms = '[' :: Nat.digitChar d :: rest := by
  rw [formatTs_eq]
  by_cases hH : 0 < ((ms / 1000) % 86400).toNat / 3600
  · rw [if_pos hH]
    rw [pad_two (x := ((ms / 1000) % 86400).toNat / 3600) (by omega)]
    exact ⟨((ms / 1000) % 86400).toNat / 3600 / 10, _, by omega, rfl⟩
  · rw [if_neg hH]
    rw [pad_two (x := ((ms / 1000) % 86400).toNat % 3600 / 60) (by omega)]
    exact ⟨((ms / 1000) % 86400).toNat % 3600 / 60 / 10, _, by omega, rfl⟩

theorem header_line_none (v : Int) (e : List Char) :
    langLine (formatTs v ++ e) = none ∧ offsetLine (formatTs v ++ e) = none := by
  obtain ⟨d, rest, hd, hf⟩ := formatTs_head v
  rw [hf]
  simp only [List.cons_append]
  exact ⟨langLine_cons_other (digit_toLower_not_l hd) _,
    offsetLine_cons_other (digit_toLower_not_o hd) _⟩

theorem digit_not_lb {c : Char} (h : c.isDigit = true) : isLB c = false := by
  cases hlb : isLB c
  · rfl
  · exfalso
    unfold isLB at hlb
    simp only [Bool.or_eq_true, beq_iff_eq] at hlb
    rcases hlb with ((((((((rfl | rfl) | rfl) | rfl) | rfl) | rfl) | rfl) |
      rfl) | rfl) | rfl <;> exact absurd h (by decide)

theorem formatTs_no_lb (v : Int) : ∀ c ∈ formatTs v, isLB c = false := by
  intro c hc
  rw [formatTs_eq] at hc
  by_cases hH : 0 < ((v / 1000) % 86400).toNat / 3600
  · rw [if_pos hH] at hc
    simp only [List.mem_cons, List.mem_append, List.mem_singleton] at hc
    rcases hc with rfl | hc | rfl | hc | rfl | hc | rfl | hc | rfl | hc
    · rfl
    · exact digit_not_lb (pad_two_digits (by omega) c hc)
    · rfl
    · exact digit_not_lb (pad_two_digits (by omega) c hc)
    · rfl
    · exact digit_not_lb (pad_two_digits (by omega) c hc)
    · rfl
    · exact digit_not_lb (pad_three_digits (by omega) c hc)
    · rfl
    · simp at hc
  · rw [if_neg hH] at hc
    simp only [List.mem_cons, List.mem_append, List.mem_singleton] at hc
    rcases hc with rfl | hc | rfl | hc | rfl | hc | rfl | hc
    · rfl
    · exact digit_not_lb (pad_two_digits (by omega) c hc)
    · rfl
    · exact digit_not_lb (pad_two_digits (by omega) c hc)
    · rfl
    · exact digit_not_lb (pad_three_digits (by omega) c hc)
    · rfl
    · simp at hc

theorem pyStrip_head {l : List Char} (h : pyStrip l = l) :
    l.dropWhile (· == ' ') = l := by
  cases l with
  | nil => rfl
  | cons c t =>
    rw [List.dropWhile_cons]
    by_cases hc : (c == ' ') = true
    · exfalso
      have hsp : isPySpace c = true := by
        unfold isPySpace
        rw [hc]
        rfl
      have h1 : ((c :: t).dropWhile isPySpace).length < (c :: t).length := by
        rw [List.dropWhile_cons, if_pos hsp]
        have := (List.dropWhile_sublist (p := isPySpace) (l := t)).length_le
        simp only [List.length_cons]
        omega
      have hlen : (pyStrip (c :: t)).length < (c :: t).length := by
        unfold pyStrip
        calc ((((c :: t).dropWhile isPySpace).reverse.dropWhile
              isPySpace).reverse).length
            = ((((c :: t).dropWhile isPySpace).reverse).dropWhile
                isPySpace).length := List.length_reverse _
          _ ≤ (((c :: t).dropWhile isPySpace).reverse).length :=
              (List.dropWhile_sublist _).length_le
          _ = ((c :: t).dropWhile isPySpace).length := List.length_reverse _
          _ < (c :: t).length := h1
      rw [h] at hlen
      omega
    · rw [if_neg hc]

theorem parse_extract_loop : ∀ (evs : List (List Char × Int)) (k : Nat)
    (st : PState),
    (∀ e ∈ evs, 0 ≤ e.2 ∧ e.2 < 86400000 ∧ pyStrip e.1 = e.1 ∧
      containsAngleTs e.1 = false ∧ startsBracketTs e.1 = false) →
    ∃ stl, (List.enumFrom k (evs.map (fun e => formatTs e.2 ++ e.1))).foldlM
        (fun s p => step 0 s p.1 p.2) st =
      Except.ok ⟨stl, st.events ++ evs, st.omitted⟩ := by
  intro evs
  induction evs with
  | nil =>
    intro k st _
    refine ⟨st.stale, ?_⟩
    show Except.ok st = _
    rw [List.append_nil]
  | cons e rest ih =>
    intro k st hok
    obtain ⟨txt, v⟩ := e
    obtain ⟨h0, h1, hstrip, hangle, hsb⟩ := hok (txt, v) (List.mem_cons_self _ _)
    have hdw : txt.dropWhile (· == ' ') = txt := pyStrip_head hstrip
    obtain ⟨g, hsm, hval⟩ := singleMatch_format h0 h1 hdw hangle hsb
    have hstep : step 0 st k (formatTs v ++ txt) =
        Except.ok ⟨some g, st.events ++ [(txt, v)], st.omitted⟩ := by
      unfold step
      rw [hsm]
      dsimp only
      rw [hval, hstrip]
      have hv0 : v + 0 = v := by omega
      rw [hv0, if_pos h0]
    obtain ⟨stl, hrest⟩ := ih (k + 1) ⟨some g, st.events ++ [(txt, v)], st.omitted⟩
      (fun e he => hok e (List.mem_cons_of_mem _ he))
    refine ⟨stl, ?_⟩
    simp only [List.map_cons]
    rw [List.enumFrom_cons]
    show (step 0 st k (formatTs v ++ txt) >>= fun s =>
        (List.enumFrom (k + 1) (rest.map (fun e => formatTs e.2 ++ e.1))).foldlM
          (fun s p => step 0 s p.1 p.2) s) =
      Except.ok ⟨stl, st.events ++ ((txt, v) :: rest), st.omitted⟩
    rw [hstep]
    have hbind : (Except.ok (⟨some g, st.events ++ [(txt, v)], st.omitted⟩ :
          PState) >>= fun s =>
        (List.enumFrom (k + 1) (rest.map (fun e => formatTs e.2 ++ e.1))).foldlM
          (fun s p => step 0 s p.1 p.2) s) =
        Except.ok ⟨stl, (st.events ++ [(txt, v)]) ++ rest, st.omitted⟩ := hrest
    rw [hbind, List.append_assoc]
    rfl

theorem roundtrip_general (evs : List (List Char × Int))
    (hok : ∀ e ∈ evs, 0 ≤ e.2 ∧ e.2 < 86400000 ∧ pyStrip e.1 = e.1 ∧
      e.1.all (fun c => !isLB c) = true ∧
      containsAngleTs e.1 = false ∧ startsBracketTs e.1 = false) :
    parse_lrc_to_sylt (extract_sylt_to_lrc evs) =
      Except.ok (['e', 'n', 'g'], List.insertionSort byValue evs, []) := by
  by_cases hne : evs = []
  · subst hne
    decide
  · have hne2 : evs.map (fun e => formatTs e.2 ++ e.1) ≠ [] := by
      intro hcon
      exact hne (List.map_eq_nil.mp hcon)
    have hline : ∀ l ∈ evs.map (fun e => formatTs e.2 ++ e.1),
        l ≠ [] ∧ l.all (fun c => !isLB c) = true := by
      intro l hl
      obtain ⟨e, he, rfl⟩ := List.mem_map.mp hl
      constructor
      · obtain ⟨d, rest, hd, hf⟩ := formatTs_head e.2
        rw [hf]
        simp
      · rw [List.all_append, Bool.and_eq_true]
        constructor
        · rw [List.all_eq_true]
          intro c hc
          rw [formatTs_no_lb e.2 c hc]
          rfl
        · exact (hok e he).2.2.2.1
    have hsplit : pySplitlines (extract_sylt_to_lrc evs) =
        evs.map (fun e => formatTs e.2 ++ e.1) := by
      unfold extract_sylt_to_lrc
      exact pySplitlines_intercalate _ hne2 hline
    have hnl : ∀ l ∈ evs.map (fun e => formatTs e.2 ++ e.1), '\n' ∉ l := by
      intro l hl hmem
      obtain ⟨hln, hall⟩ := hline l hl
      have := List.all_eq_true.mp hall '\n' hmem
      exact absurd this (by decide)
    have hsegs : mlSegments (extract_sylt_to_lrc evs) =
        evs.map (fun e => formatTs e.2 ++ e.1) := by
      unfold extract_sylt_to_lrc mlSegments
      exact List.splitOn_intercalate _ '\n' (fun l hl => hnl l hl) hne2
    have hlang : findLang (extract_sylt_to_lrc evs) = none := by
      unfold findLang
      rw [hsegs, List.findSome?_eq_none]
      intro l hl
      obtain ⟨e, he, rfl⟩ := List.mem_map.mp hl
      exact (header_line_none e.2 e.1).1
    have hoff : findOffset (extract_sylt_to_lrc evs) = none := by
      unfold findOffset
      rw [hsegs, List.findSome?_eq_none]
      intro l hl
      obtain ⟨e, he, rfl⟩ := List.mem_map.mp hl
      exact (header_line_none e.2 e.1).2
    obtain ⟨stl, hloop⟩ := parse_extract_loop evs 0 ⟨none, [], []⟩
      (fun e he => ⟨(hok e he).1, (hok e he).2.1, (hok e he).2.2.1,
        (hok e he).2.2.2.2.1, (hok e he).2.2.2.2.2⟩)
    have hraw : parseRaw (extract_sylt_to_lrc evs) =
        Except.ok ⟨stl, evs, []⟩ := by
      unfold parseRaw
      rw [hoff, hsplit]
      rw [List.nil_append] at hloop
      exact hloop
    unfold parse_lrc_to_sylt
    rw [hraw, hlang]
    dsimp only
    rfl

/-- C7 counterexample: the formatter computes the timestamp from
`timedelta.seconds`, which discards whole days, so an event at or beyond 24
hours does not round-trip: `[99:00:00]x` parses to 356400000 ms but formats
back as `[03:00:00.000]x`, which re-parses to 10800000 ms. -/
theorem C7_counterexample :
    parse_lrc_to_sylt ("[99:00:00]x".toList) =
      Except.ok (['e', 'n', 'g'], [(['x'], 356400000)], []) ∧
    extract_sylt_to_lrc [(['x'], 356400000)] = "[03:00:00.000]x".toList ∧
    parse_lrc_to_sylt ("[03:00:00.000]x".toList) =
      Except.ok (['e', 'n', 'g'], [(['x'], 10800000)], []) := by
  exact ⟨by decide, by decide, by decide⟩

/-- C7 (amended): the round-trip holds for events whose values fit within one
day and whose texts are inert for the line grammar: if a parse succeeds and
every event value `v` has `0 ≤ v < 86400000` and every event text is
strip-fixed, free of line breaks, and does not contain an angle-bracket
timestamp prefix nor start with a bracket timestamp prefix, then formatting
the events to LRC lines and re-parsing returns exactly the same event list
(with no omitted lines, default language, zero offset). -/
theorem C7_roundtrip (text lang : List Char) (evs : List (List Char × Int))
    (om : List (List Char))
    (hp : parse_lrc_to_sylt text = Except.ok (lang, evs, om))
    (hok : ∀ e ∈ evs, 0 ≤ e.2 ∧ e.2 < 86400000 ∧ pyStrip e.1 = e.1 ∧
      e.1.all (fun c => !isLB c) = true ∧
      containsAngleTs e.1 = false ∧ startsBracketTs e.1 = false) :
    parse_lrc_to_sylt (extract_sylt_to_lrc evs) =
      Except.ok (['e', 'n', 'g'], evs, []) := by
  have hsorted : evs.Sorted byValue := by
    cases hpr : parseRaw text with
    | error e =>
      unfold parse_lrc_to_sylt at hp
      rw [hpr] at hp
      exact Except.noConfusion hp
    | ok st =>
      unfold parse_lrc_to_sylt at hp
      rw [hpr] at hp
      dsimp only at hp
      injection hp with hp
      injection hp with h1 hp
      injection hp with h2 h3
      rw [← h2]
      exact List.sorted_insertionSort byValue st.events
  rw [roundtrip_general evs hok, hsorted.insertionSort_eq]

theorem C7_witness :
    parse_lrc_to_sylt (extract_sylt_to_lrc [(['a'], 1000), (['b'], 2000)]) =
      Except.ok (['e', 'n', 'g'], [(['a'], 1000), (['b'], 2000)], []) :=
  C7_roundtrip ("[00:01]a\n[00:02]b".toList) ['e', 'n', 'g']
    [(['a'], 1000), (['b'], 2000)] [] (by decide) (by decide)

end Lyrict
